import Mathlib

/-!
# In-memory LRU cache with TTL (`cache/cache.go`)

A shallow embedding of the Go package `cache`: a doubly linked queue of
nodes between two sentinels, an index from keys to nodes, and a capacity.

Modelling conventions.

* Go pointers `*Node` are heap addresses (`Nat`); a nil pointer is `none`.
  The heap is a total function from addresses to nodes together with an
  allocation counter `fresh`; `&Node{...}` takes the address `fresh`.
* A nil-pointer dereference or an out-of-range slice index is a Go panic;
  the operations return `Option`, and `none` is a panic.
* `time.Now()` is a parameter `now`, an instant in nanoseconds since the
  Unix epoch; a `time.Duration` is a number of nanoseconds; `Time.Unix()` is
  the floor division by `10^9`. Instants and durations are unbounded
  integers: `Time.Add` keeps seconds and nanoseconds apart and does not wrap
  for the instants a clock returns.
* Go `int` values (`Queue.Len`, `Capacity`) are `Int`; the length counter
  moves by one per operation, so 64-bit overflow is out of reach.
* The mutexes are not modelled: every operation runs alone, from start to
  end. The cleanup goroutine is its start (`StartCleanupTask`, where
  `time.NewTicker` panics on a non-positive interval) and its ticks, which
  are calls of `RemoveExpired`.
-/

namespace LRU

/-- Values of Go's `any` that the cache stores: `nil`, integers, strings. -/
inductive GoAny where
  | nil
  | int (n : Int)
  | str (s : String)
deriving DecidableEq, Repr

/-- Go `type Node struct { Key; Value; Prev; Next; TTL }` (the mutex is dropped). -/
structure Node where
  Key : String
  Value : GoAny
  Prev : Option Nat
  Next : Option Nat
  TTL : Option Int
deriving DecidableEq, Repr

/-- The zero value `Node{}`. -/
def Node.zero : Node := ⟨"", GoAny.nil, none, none, none⟩

/-- Go `type Queue struct { Head; Tail; Len }`; the two sentinels are never nil
once `NewQueue` has run, so they are plain addresses. -/
structure Queue where
  Head : Nat
  Tail : Nat
  Len : Int
deriving DecidableEq, Repr

/-- Go `type Cache struct { Queue; SMap; Capacity }`, together with the heap
the node pointers live in. `SMap` is the content of the `sync.Map`: at most
one pair per key. -/
structure Cache where
  heap : Nat → Node
  fresh : Nat
  Queue : Queue
  SMap : List (String × Nat)
  Capacity : Int

/-- Field write `p.Next = v`. -/
def setNext (h : Nat → Node) (p : Nat) (v : Option Nat) : Nat → Node :=
  fun x => if x = p then { h x with Next := v } else h x

/-- Field write `p.Prev = v`. -/
def setPrev (h : Nat → Node) (p : Nat) (v : Option Nat) : Nat → Node :=
  fun x => if x = p then { h x with Prev := v } else h x

/-- Field write `p.Value = v`. -/
def setValue (h : Nat → Node) (p : Nat) (v : GoAny) : Nat → Node :=
  fun x => if x = p then { h x with Value := v } else h x

/-- Field write `p.TTL = v`. -/
def setTTL (h : Nat → Node) (p : Nat) (v : Option Int) : Nat → Node :=
  fun x => if x = p then { h x with TTL := v } else h x

/-- Allocation `&Node{...}`: the node is written at address `p`. -/
def setNode (h : Nat → Node) (p : Nat) (nd : Node) : Nat → Node :=
  fun x => if x = p then nd else h x

/-- Go `sync.Map.Load`. -/
def Load (m : List (String × Nat)) (key : String) : Option Nat :=
  (m.find? (fun e => decide (e.1 = key))).map Prod.snd

/-- Go `sync.Map.Delete`. -/
def Delete (m : List (String × Nat)) (key : String) : List (String × Nat) :=
  m.filter (fun e => decide (e.1 ≠ key))

/-- Go `sync.Map.Store`: the pair replaces any pair of the same key. -/
def Store (m : List (String × Nat)) (key : String) (p : Nat) : List (String × Nat) :=
  (key, p) :: Delete m key

/-- Go `lenSyncMap`: the number of pairs `Range` visits. -/
def lenSyncMap (m : List (String × Nat)) : Int := m.length

/-- Go `NewQueue` followed by the struct that `NewCache(i, cleanUp)` builds:
head at address 0, tail at address 1, linked to each other. The goroutine
that `NewCache` starts is `StartCleanupTask`; `NewCacheTask` puts the two
together. -/
def NewCache (i : Int) : Cache :=
  let h0 : Nat → Node := fun _ => Node.zero
  let h1 := setNext h0 0 (some 1)
  let h2 := setPrev h1 1 (some 0)
  { heap := h2, fresh := 2, Queue := ⟨0, 1, 0⟩, SMap := [], Capacity := i }

/-- Go `Cache.Remove(existing)`: unlink through the node's own `Prev` and
`Next`, decrement `Len`, delete the key from the index, return the node. -/
def Remove (k : Cache) (existing : Nat) : Option (Cache × Nat) :=
  match (k.heap existing).Prev, (k.heap existing).Next with
  | some prev, some next =>
    let h1 := setNext k.heap prev (some next)
    let h2 := setPrev h1 next (some prev)
    some ({ k with
            heap := h2
            Queue := { k.Queue with Len := k.Queue.Len - 1 }
            SMap := Delete k.SMap (h2 existing).Key }, existing)
  | _, _ => none

/-- Go `Cache.Add(node)`: splice the node after the head, increment `Len`,
remove `Tail.Prev` when `Len > Capacity`, then store the node in the index. -/
def Add (k : Cache) (node : Nat) : Option (Cache × Nat) :=
  match (k.heap k.Queue.Head).Next with
  | none => none
  | some tmp =>
    let h1 := setNext k.heap k.Queue.Head (some node)
    let h2 := setPrev h1 node (some k.Queue.Head)
    let h3 := setNext h2 node (some tmp)
    let h4 := setPrev h3 tmp (some node)
    let k1 : Cache := { k with heap := h4, Queue := { k.Queue with Len := k.Queue.Len + 1 } }
    let evicted : Option Cache :=
      if k1.Queue.Len > k1.Capacity then
        match (k1.heap k1.Queue.Tail).Prev with
        | none => none
        | some last => (Remove k1 last).map Prod.fst
      else some k1
    evicted.map (fun k2 => ({ k2 with SMap := Store k2.SMap (k2.heap node).Key node }, node))

/-- The expiry computed by `Set`: `time.Now().Add(ttl[0]).Unix()` when the
variadic `ttl` is not nil. The outer `none` is the panic of `ttl[0]` on an
empty, non-nil slice. -/
def expiresAt (now : Int) (ttl : Option (List Int)) : Option (Option Int) :=
  match ttl with
  | none => some none
  | some [] => none
  | some (d :: _) => some (some ((now + d) / 1000000000))

/-- The test `node.TTL != nil && time.Now().Unix() > *node.TTL`. -/
def isExpired (ttl : Option Int) (now : Int) : Bool :=
  match ttl with
  | none => false
  | some e => decide (now / 1000000000 > e)

/-- Go `Cache.Set(key, value, ttl...)` at clock time `now`. The node that
`node := &Node{}` allocates first is dropped in both branches and is not
allocated here. -/
def Set (k : Cache) (now : Int) (key : String) (value : GoAny)
    (ttl : Option (List Int)) : Option Cache :=
  match expiresAt now ttl with
  | none => none
  | some exp =>
    match Load k.SMap key with
    | some existing =>
      match Remove k existing with
      | none => none
      | some (k1, node) =>
        let k2 : Cache := { k1 with heap := setTTL (setValue k1.heap node value) node exp }
        (Add k2 node).map Prod.fst
    | none =>
      let node := k.fresh
      let k1 : Cache :=
        { k with heap := setNode k.heap node ⟨key, value, none, none, exp⟩
                 fresh := k.fresh + 1 }
      (Add k1 node).map Prod.fst

/-- Go `Cache.Get(key)` at clock time `now`: the new state, the value and the
found flag. The index only holds node pointers stored by `Add`, so the test
`tmp == nil` never fires and a loaded entry is always a node. -/
def Get (k : Cache) (now : Int) (key : String) : Option (Cache × GoAny × Bool) :=
  match Load k.SMap key with
  | none => some (k, GoAny.nil, false)
  | some node =>
    if isExpired (k.heap node).TTL now then
      (Remove k node).map (fun r => (r.1, GoAny.nil, false))
    else
      match Remove k node with
      | none => none
      | some (k1, _) =>
        match Add k1 node with
        | none => none
        | some (k2, _) => some (k2, (k2.heap node).Value, true)

/-- The loop of `RemoveExpired`: `for i := 0; i < k.Queue.Len; i++`, with
`Queue.Len` read again at every test. The first argument bounds the number
of iterations; running out of it before the test fails gives `none`, as
does `node.Next` on a nil `node`. -/
def sweepLoop : Nat → Cache → Int → Option Nat → Int → Option Cache
  | 0, k, _, _, i => if i < k.Queue.Len then none else some k
  | fuel + 1, k, now, node, i =>
    if i < k.Queue.Len then
      match node with
      | none => none
      | some n =>
        let next := (k.heap n).Next
        let k1 : Option Cache :=
          if isExpired (k.heap n).TTL now then (Remove k n).map Prod.fst else some k
        match k1 with
        | none => none
        | some k2 => sweepLoop fuel k2 now next (i + 1)
    else some k

/-- Go `Cache.RemoveExpired()` at clock time `now`. `Len` never grows in the
loop and `i` grows by one per iteration, so `Len` iterations are enough. -/
def RemoveExpired (k : Cache) (now : Int) : Option Cache :=
  sweepLoop k.Queue.Len.toNat k now (k.heap k.Queue.Head).Next 0

/-- Go `Cache.QueueLen()`. -/
def QueueLen (k : Cache) : Int := k.Queue.Len

/-- Follow `Next` from a pointer until the tail sentinel (or nil), at most
`fuel` nodes. -/
def walk (k : Cache) : Nat → Option Nat → List Nat
  | 0, _ => []
  | _ + 1, none => []
  | fuel + 1, some p => if p = k.Queue.Tail then [] else p :: walk k fuel (k.heap p).Next

/-- The nodes linked in the queue, from `Head.Next` to the tail. -/
def queueNodes (k : Cache) : List Nat := walk k k.fresh (k.heap k.Queue.Head).Next

/-- The keys of the linked nodes, head to tail. -/
def queueKeys (k : Cache) : List String := (queueNodes k).map (fun p => (k.heap p).Key)

/-- The payload of a node: the fields the queue links do not touch. -/
def payload (nd : Node) : String × GoAny × Option Int := (nd.Key, nd.Value, nd.TTL)

/-- The heap links `a`, the nodes of `l` in order, and `b` in both directions. -/
def Chain (h : Nat → Node) : Nat → List Nat → Nat → Prop
  | a, [], b => (h a).Next = some b ∧ (h b).Prev = some a
  | a, x :: xs, b => (h a).Next = some x ∧ (h x).Prev = some a ∧ Chain h x xs b

/-- The index a list of linked nodes stands for: each node under its key. -/
def index (h : Nat → Node) (l : List Nat) : List (String × Nat) :=
  l.map (fun p => ((h p).Key, p))

/-- The queue of `k` links exactly the nodes `l`, head to tail: the sentinels
and the nodes are pairwise distinct allocated addresses, `Next` and `Prev`
agree along the chain, and `Len` counts the nodes. -/
structure QueueOK (k : Cache) (l : List Nat) : Prop where
  nodup : (k.Queue.Head :: l ++ [k.Queue.Tail]).Nodup
  chain : Chain k.heap k.Queue.Head l k.Queue.Tail
  len : k.Queue.Len = l.length
  alloc : ∀ p ∈ k.Queue.Head :: l ++ [k.Queue.Tail], p < k.fresh

/-- The queue links exactly `l` and the index holds exactly the nodes of `l`,
each under its own key, with no key twice. -/
structure Linked (k : Cache) (l : List Nat) : Prop where
  queue : QueueOK k l
  smap : k.SMap.Perm (index k.heap l)
  keys : ((index k.heap l).map Prod.fst).Nodup

/-- Capacity enforcement seen on the list of linked nodes: the last one goes
when the list is longer than the capacity. -/
def fit {α : Type} (cap : Int) (l : List α) : List α :=
  if cap < (l.length : Int) then l.dropLast else l

/-- The sweep of `RemoveExpired` seen on the list of nodes still to visit:
`i` is the loop counter, `len` the current `Queue.Len`, `e` tells the expired
nodes. The loop stops as soon as `i < len` fails. -/
def sweepList (e : Nat → Bool) : List Nat → Int → Int → List Nat
  | [], _, _ => []
  | x :: xs, i, len =>
    if i < len then
      if e x then sweepList e xs (i + 1) (len - 1) else x :: sweepList e xs (i + 1) len
    else x :: xs

/-- The states a cache built by `NewCache cap` reaches by sequential calls of
`Set`, `Get`, `RemoveExpired`, and `Remove` of a node the index holds, with
any arguments and any clock values. Only calls that return are steps. -/
inductive Reachable (cap : Int) : Cache → Prop
  | init : Reachable cap (NewCache cap)
  | set {k k' : Cache} (now : Int) (key : String) (value : GoAny) (ttl : Option (List Int)) :
      Reachable cap k → Set k now key value ttl = some k' → Reachable cap k'
  | get {k k' : Cache} (now : Int) (key : String) (v : GoAny) (found : Bool) :
      Reachable cap k → Get k now key = some (k', v, found) → Reachable cap k'
  | sweep {k k' : Cache} (now : Int) :
      Reachable cap k → RemoveExpired k now = some k' → Reachable cap k'
  | remove {k k' : Cache} (key : String) (n n' : Nat) :
      Reachable cap k → Load k.SMap key = some n → Remove k n = some (k', n') →
      Reachable cap k'

/-- One call `Set(key, value, ttl...)` with the clock value it runs at. -/
structure SetCall where
  now : Int
  key : String
  value : GoAny
  ttl : Option (List Int)
deriving DecidableEq, Repr

/-- A sequence of `Set` calls, run in order; `none` when one of them panics. -/
def SetAll (k : Cache) : List SetCall → Option Cache
  | [] => some k
  | c :: cs =>
    match Set k c.now c.key c.value c.ttl with
    | none => none
    | some k' => SetAll k' cs

/-- The value given by the last call of the sequence that sets `key`. -/
def lastValue : List SetCall → String → Option GoAny
  | [], _ => none
  | c :: cs, key =>
    match lastValue cs key with
    | some v => some v
    | none => if c.key = key then some c.value else none

/-- The calls of `TestCacheSetAndGet` up to the overwrite of `key2`. -/
def overwriteCalls : List SetCall :=
  [⟨0, "key1", GoAny.str "value1", none⟩, ⟨0, "key2", GoAny.str "value2", none⟩,
   ⟨0, "key3", GoAny.str "value3", none⟩, ⟨0, "key2", GoAny.str "new_value2", none⟩]

/-- The calls `Set(a)`, `Set(b)`, `Set(c)`, `Set(d)`, without TTL. -/
def abcdCalls : List SetCall :=
  [⟨0, "a", GoAny.int 1, none⟩, ⟨0, "b", GoAny.int 2, none⟩, ⟨0, "c", GoAny.int 3, none⟩,
   ⟨0, "d", GoAny.int 4, none⟩]

/-- The calls `Set(a)`, `Set(b)`, `Set(c)`, without TTL. -/
def abcCalls : List SetCall :=
  [⟨0, "a", GoAny.int 1, none⟩, ⟨0, "b", GoAny.int 2, none⟩, ⟨0, "c", GoAny.int 3, none⟩]

/-- The cache of capacity 3 after `Set(a)`, `Set(b)`, `Set(c)`: recency order
`c, b, a`. -/
def cacheABC : Cache := (SetAll (NewCache 3) abcCalls).getD (NewCache 3)

/-- The calls of `TestCacheRemoveExpired`, all at time 0: `key1` (TTL 1s),
`key2` (TTL 2s), `key3` (TTL 12s), `key4` (no TTL). -/
def ttlCalls : List SetCall :=
  [⟨0, "key1", GoAny.str "value1", some [1000000000]⟩,
   ⟨0, "key2", GoAny.str "value2", some [2000000000]⟩,
   ⟨0, "key3", GoAny.str "value3", some [12000000000]⟩,
   ⟨0, "key4", GoAny.str "value4", none⟩]

/-- The cache of `TestCacheRemoveExpired` before the sweep, capacity 5. -/
def cacheTTL : Cache := (SetAll (NewCache 5) ttlCalls).getD (NewCache 5)

/-- Follow one pointer field (`Next` or `Prev`) from a pointer until the node
`stop`: the nodes passed, or `none` when a nil pointer comes first or the
fuel runs out. -/
def walkTo (h : Nat → Node) (next : Node → Option Nat) (stop : Nat) :
    Nat → Option Nat → Option (List Nat)
  | 0, _ => none
  | _ + 1, none => none
  | fuel + 1, some p =>
    if p = stop then some []
    else (walkTo h next stop fuel (next (h p))).map (fun l => p :: l)

/-- Consecutive calls of `RemoveExpired`, all at clock time `now`. -/
def RemoveExpiredN (k : Cache) (now : Int) : Nat → Option Cache
  | 0 => some k
  | m + 1 =>
    match RemoveExpired k now with
    | none => none
    | some k' => RemoveExpiredN k' now m

/-- Consecutive sweeps seen on the list of linked nodes: each pass starts with
`i = 0` and `Queue.Len` equal to the length of the list. -/
def sweepPasses (e : Nat → Bool) : Nat → List Nat → List Nat
  | 0, l => l
  | m + 1, l => sweepPasses e m (sweepList e l 0 (l.length : Int))

/-- Go `Cache.StartCleanupTask(interval)` up to its first tick: `time.NewTicker`
panics on a non-positive interval, and a panic in the goroutine that
`NewCache` starts ends the process. The ticks themselves are calls of
`RemoveExpired` at the clock values of the ticks. -/
def StartCleanupTask (interval : Int) : Option Unit :=
  if interval ≤ 0 then none else some ()

/-- Go `NewCache(i, cleanUp)` together with the goroutine it starts: the cache
of `NewCache i`, or `none` when the ticker of the cleanup task panics. -/
def NewCacheTask (i : Int) (cleanUp : Int) : Option Cache :=
  match StartCleanupTask cleanUp with
  | none => none
  | some _ => some (NewCache i)

/-- The prefill of `TestConcurrentGetAndRemove`: `key0` to `key9`, no TTL. -/
def prefillCalls : List SetCall :=
  [⟨0, "key0", GoAny.str "value0", none⟩, ⟨0, "key1", GoAny.str "value1", none⟩,
   ⟨0, "key2", GoAny.str "value2", none⟩, ⟨0, "key3", GoAny.str "value3", none⟩,
   ⟨0, "key4", GoAny.str "value4", none⟩, ⟨0, "key5", GoAny.str "value5", none⟩,
   ⟨0, "key6", GoAny.str "value6", none⟩, ⟨0, "key7", GoAny.str "value7", none⟩,
   ⟨0, "key8", GoAny.str "value8", none⟩, ⟨0, "key9", GoAny.str "value9", none⟩]

/-- The cache of `TestConcurrentGetAndRemove` after its prefill, capacity 1000. -/
def cachePrefilled : Cache := (SetAll (NewCache 1000) prefillCalls).getD (NewCache 1000)

/-- Three keys set at time 0 with TTL 1s, 2s and 3s. -/
def allTTLCalls : List SetCall :=
  [⟨0, "x", GoAny.int 1, some [1000000000]⟩, ⟨0, "y", GoAny.int 2, some [2000000000]⟩,
   ⟨0, "z", GoAny.int 3, some [3000000000]⟩]

/-- The cache of capacity 3 whose three entries all carry a TTL. -/
def cacheAllTTL : Cache := (SetAll (NewCache 3) allTTLCalls).getD (NewCache 3)

/-- What unlinking and splicing leave alone: the capacity, the sentinels, the
allocation counter and every node's key, value and expiry. -/
structure Frame (k k' : Cache) : Prop where
  cap : k'.Capacity = k.Capacity
  head : k'.Queue.Head = k.Queue.Head
  tail : k'.Queue.Tail = k.Queue.Tail
  fresh : k'.fresh = k.fresh
  payload : ∀ x, payload (k'.heap x) = payload (k.heap x)

/-- The data-model invariants together: a consistent queue, the index in
bijection with it, a positive capacity, and `Len` within the capacity. Every
state a cache of positive capacity reaches is of this kind
(`Reachable.wellFormed`). -/
def WellFormed (k : Cache) : Prop :=
  ∃ l, Linked k l ∧ 1 ≤ k.Capacity ∧ k.Queue.Len ≤ k.Capacity

/-! ## Heap writes and chains -/

@[simp]
theorem setNext_Next (h : Nat → Node) (p x : Nat) (v : Option Nat) :
    (setNext h p v x).Next = if x = p then v else (h x).Next := by
  unfold setNext; split <;> rfl

@[simp]
theorem setNext_Prev (h : Nat → Node) (p x : Nat) (v : Option Nat) :
    (setNext h p v x).Prev = (h x).Prev := by
  unfold setNext; split <;> rfl

@[simp]
theorem setPrev_Prev (h : Nat → Node) (p x : Nat) (v : Option Nat) :
    (setPrev h p v x).Prev = if x = p then v else (h x).Prev := by
  unfold setPrev; split <;> rfl

@[simp]
theorem setPrev_Next (h : Nat → Node) (p x : Nat) (v : Option Nat) :
    (setPrev h p v x).Next = (h x).Next := by
  unfold setPrev; split <;> rfl

@[simp]
theorem setNext_payload (h : Nat → Node) (p x : Nat) (v : Option Nat) :
    payload (setNext h p v x) = payload (h x) := by
  unfold setNext; split <;> rfl

@[simp]
theorem setPrev_payload (h : Nat → Node) (p x : Nat) (v : Option Nat) :
    payload (setPrev h p v x) = payload (h x) := by
  unfold setPrev; split <;> rfl

@[simp]
theorem setNext_Key (h : Nat → Node) (p x : Nat) (v : Option Nat) :
    (setNext h p v x).Key = (h x).Key := by
  unfold setNext; split <;> rfl

@[simp]
theorem setPrev_Key (h : Nat → Node) (p x : Nat) (v : Option Nat) :
    (setPrev h p v x).Key = (h x).Key := by
  unfold setPrev; split <;> rfl

@[simp]
theorem setValue_Next (h : Nat → Node) (p x : Nat) (v : GoAny) :
    (setValue h p v x).Next = (h x).Next := by
  unfold setValue; split <;> rfl

@[simp]
theorem setValue_Prev (h : Nat → Node) (p x : Nat) (v : GoAny) :
    (setValue h p v x).Prev = (h x).Prev := by
  unfold setValue; split <;> rfl

@[simp]
theorem setValue_Key (h : Nat → Node) (p x : Nat) (v : GoAny) :
    (setValue h p v x).Key = (h x).Key := by
  unfold setValue; split <;> rfl

@[simp]
theorem setTTL_Next (h : Nat → Node) (p x : Nat) (v : Option Int) :
    (setTTL h p v x).Next = (h x).Next := by
  unfold setTTL; split <;> rfl

@[simp]
theorem setTTL_Prev (h : Nat → Node) (p x : Nat) (v : Option Int) :
    (setTTL h p v x).Prev = (h x).Prev := by
  unfold setTTL; split <;> rfl

@[simp]
theorem setTTL_Key (h : Nat → Node) (p x : Nat) (v : Option Int) :
    (setTTL h p v x).Key = (h x).Key := by
  unfold setTTL; split <;> rfl

/-- A chain only reads `Next` of its left end and inner nodes and `Prev` of
its inner nodes and right end. -/
theorem Chain.congr {h h' : Nat → Node} {b : Nat} :
    ∀ (l : List Nat) (a : Nat), Chain h a l b →
      (∀ x ∈ a :: l, (h' x).Next = (h x).Next) →
      (∀ x ∈ l ++ [b], (h' x).Prev = (h x).Prev) → Chain h' a l b
  | [], a, hc, hn, hp => by
    refine ⟨?_, ?_⟩
    · rw [hn a (by simp)]; exact hc.1
    · rw [hp b (by simp)]; exact hc.2
  | x :: xs, a, hc, hn, hp => by
    refine ⟨?_, ?_, ?_⟩
    · rw [hn a (by simp)]; exact hc.1
    · rw [hp x (by simp)]; exact hc.2.1
    · exact Chain.congr xs x hc.2.2 (fun y hy => hn y (List.mem_cons_of_mem _ hy))
        (fun y hy => hp y (by simp at hy ⊢; tauto))

/-- The first node after `a` in a chain. -/
theorem Chain.next_eq {h : Nat → Node} {a b : Nat} {l : List Nat} (hc : Chain h a l b) :
    (h a).Next = (l ++ [b]).head? := by
  cases l with
  | nil => exact hc.1
  | cons x xs => exact hc.1

/-- The node before `b` in a chain. -/
theorem Chain.prev_eq {h : Nat → Node} {b : Nat} :
    ∀ (l : List Nat) (a : Nat), Chain h a l b → (h b).Prev = (a :: l).getLast?
  | [], a, hc => by simpa using hc.2
  | x :: xs, a, hc => by
    have := Chain.prev_eq xs x hc.2.2
    rw [this, List.getLast?_cons_cons]

/-- Unlinking a node of a chain through its own `Prev` and `Next`. -/
theorem Chain.remove {h : Nat → Node} {b n : Nat} :
    ∀ (l : List Nat) (a : Nat), Chain h a l b → (a :: l ++ [b]).Nodup → n ∈ l →
      ∃ p x, (h n).Prev = some p ∧ (h n).Next = some x ∧ p ∈ a :: l ∧ x ∈ l ++ [b] ∧
        Chain (setPrev (setNext h p (some x)) x (some p)) a (l.erase n) b
  | [], a, _, _, hn => by simp at hn
  | c :: l, a, hc, hnd, hn => by
    by_cases hcn : c = n
    · subst hcn
      have hx := Chain.next_eq hc.2.2
      rw [List.erase_cons_head]
      cases l with
      | nil =>
        refine ⟨a, b, hc.2.1, hc.2.2.1, by simp, by simp, ?_, ?_⟩
        · simp
        · simp
      | cons y ys =>
        refine ⟨a, y, hc.2.1, hc.2.2.1, by simp, by simp, ?_, ?_, ?_⟩
        · simp
        · simp
        · apply Chain.congr ys y hc.2.2.2.2
          · intro z hz
            have : z ≠ a := by
              rintro rfl
              simp at hnd hz
              tauto
            simp [this]
          · intro z hz
            have : z ≠ y := by
              rintro rfl
              simp at hnd hz
              tauto
            simp [this]
    · have hn' : n ∈ l := by
        rcases List.mem_cons.1 hn with h1 | h1
        · exact absurd h1.symm hcn
        · exact h1
      have hnd' : (c :: l ++ [b]).Nodup := (List.nodup_cons.1 hnd).2
      obtain ⟨p, x, hp, hx, hpm, hxm, hch⟩ := Chain.remove l c hc.2.2 hnd' hn'
      have hne : ¬ (c == n) = true := by simpa using hcn
      rw [List.erase_cons_tail hne]
      refine ⟨p, x, hp, hx, List.mem_cons_of_mem _ hpm, by simp at hxm ⊢; tauto, ?_, ?_, hch⟩
      · have : a ≠ p := by
          rintro rfl
          exact (List.nodup_cons.1 hnd).1 (by simp at hpm ⊢; tauto)
        simp [this, hc.1]
      · have : c ≠ x := by
          rintro rfl
          exact (List.nodup_cons.1 hnd').1 (by simpa using hxm)
        simp [this, hc.2.1]


/-- Splicing a node that is not in the chain right after its left end. -/
theorem Chain.insert {h : Nat → Node} {a b n : Nat} {l : List Nat} (hc : Chain h a l b)
    (hnd : (a :: l ++ [b]).Nodup) (hn : n ∉ a :: l ++ [b]) :
    ∃ tmp, (h a).Next = some tmp ∧
      Chain (setPrev (setNext (setPrev (setNext h a (some n)) n (some a)) n (some tmp)) tmp
        (some n)) a (n :: l) b := by
  have hna : n ≠ a := by rintro rfl; exact hn (by simp)
  cases l with
  | nil =>
    have hnb : n ≠ b := by rintro rfl; exact hn (by simp)
    have hab : a ≠ b := by simpa using hnd
    refine ⟨b, hc.1, ?_, ?_, ?_, ?_⟩
    · simp [hab, hna.symm]
    · simp [hnb]
    · simp
    · simp
  | cons y ys =>
    have hny : n ≠ y := by rintro rfl; exact hn (by simp)
    have hay : a ≠ y := by
      rintro rfl
      simp at hnd
    refine ⟨y, hc.1, ?_, ?_, ?_, ?_, ?_⟩
    · simp [hay, hna.symm]
    · simp [hny]
    · simp
    · simp
    · apply Chain.congr ys y hc.2.2
      · intro z hz
        have h1 : z ≠ a := by
          rintro rfl
          simp at hnd hz
          tauto
        have h2 : z ≠ n := by
          rintro rfl
          exact hn (by simp at hz ⊢; tauto)
        simp [h1, h2]
      · intro z hz
        have h1 : z ≠ y := by
          rintro rfl
          simp at hnd hz
          tauto
        have h2 : z ≠ n := by
          rintro rfl
          exact hn (by simp at hz ⊢; tauto)
        simp [h1, h2]

theorem index_congr {h h' : Nat → Node} (l : List Nat) (hk : ∀ x ∈ l, (h' x).Key = (h x).Key) :
    index h' l = index h l := by
  unfold index
  apply List.map_congr_left
  intro x hx
  rw [hk x hx]

theorem index_keys (h : Nat → Node) (l : List Nat) :
    (index h l).map Prod.fst = l.map (fun p => (h p).Key) := by
  simp [index, List.map_map, Function.comp_def]

theorem mem_index {h : Nat → Node} {l : List Nat} {key : String} {p : Nat} :
    (key, p) ∈ index h l ↔ p ∈ l ∧ (h p).Key = key := by
  simp only [index, List.mem_map, Prod.mk.injEq]
  constructor
  · rintro ⟨q, hq, hk, rfl⟩; exact ⟨hq, hk⟩
  · rintro ⟨hq, hk⟩; exact ⟨p, hq, hk, rfl⟩

theorem Load_eq_none {m : List (String × Nat)} {key : String} :
    Load m key = none ↔ key ∉ m.map Prod.fst := by
  induction m with
  | nil => simp [Load]
  | cons e m ih =>
    by_cases he : e.1 = key
    · simp [Load, List.find?_cons, he]
    · simp only [Load, List.find?_cons, he, decide_False, List.map_cons, List.mem_cons] at ih ⊢
      rw [ih]
      constructor
      · rintro h1 (h2 | h2)
        · exact he h2.symm
        · exact h1 h2
      · intro h1 h2; exact h1 (Or.inr h2)

theorem Load_eq_some {m : List (String × Nat)} {key : String} {p : Nat}
    (hm : (m.map Prod.fst).Nodup) : Load m key = some p ↔ (key, p) ∈ m := by
  induction m with
  | nil => simp [Load]
  | cons e m ih =>
    have hm' : e.1 ∉ m.map Prod.fst ∧ (m.map Prod.fst).Nodup := by
      rw [List.map_cons, List.nodup_cons] at hm
      exact hm
    by_cases he : e.1 = key
    · have hnot : ∀ q, (key, q) ∉ m := by
        intro q hq
        apply hm'.1
        rw [he]
        exact List.mem_map.2 ⟨(key, q), hq, rfl⟩
      simp only [Load, List.find?_cons, he, decide_True, Option.map_some', Option.some.injEq,
        List.mem_cons]
      constructor
      · intro h1; left; rw [← h1, ← he]
      · rintro (h1 | h1)
        · rw [← h1]
        · exact absurd h1 (hnot p)
    · have ih' := ih hm'.2
      simp only [Load, List.find?_cons, he, decide_False, List.mem_cons] at ih' ⊢
      rw [ih']
      constructor
      · intro h1; exact Or.inr h1
      · rintro (h1 | h1)
        · exact absurd (by rw [← h1]) he
        · exact h1

theorem Delete_absent {m : List (String × Nat)} {key : String}
    (hk : key ∉ m.map Prod.fst) : Delete m key = m := by
  unfold Delete
  apply List.filter_eq_self.2
  intro e he
  have : e.1 ≠ key := by
    rintro rfl
    exact hk (List.mem_map.2 ⟨e, he, rfl⟩)
  simpa using this

/-- Deleting the key of a linked node from the index of `l` gives the index of
`l` without that node. -/
theorem index_delete {h : Nat → Node} {n : Nat} :
    ∀ (l : List Nat), ((index h l).map Prod.fst).Nodup → n ∈ l →
      Delete (index h l) (h n).Key = index h (l.erase n)
  | [], _, hn => by simp at hn
  | c :: l, hnd, hn => by
    have hnd' : (h c).Key ∉ (index h l).map Prod.fst ∧ ((index h l).map Prod.fst).Nodup := by
      simp only [index, List.map_cons, List.nodup_cons] at hnd ⊢
      exact hnd
    have hnd2 := hnd'.2
    by_cases hcn : c = n
    · subst hcn
      rw [List.erase_cons_head]
      have : Delete (index h l) (h c).Key = index h l := by
        apply Delete_absent
        exact hnd'.1
      simpa [Delete, index] using this
    · have hn' : n ∈ l := by
        rcases List.mem_cons.1 hn with h1 | h1
        · exact absurd h1.symm hcn
        · exact h1
      have hne : ¬ (c == n) = true := by simpa using hcn
      have hkey : (h c).Key ≠ (h n).Key := by
        intro heq
        apply hnd'.1
        rw [index_keys, heq]
        exact List.mem_map.2 ⟨n, hn', rfl⟩
      rw [List.erase_cons_tail hne]
      have ih := index_delete l hnd2 hn'
      simp only [Delete, index, List.map_cons] at ih ⊢
      rw [List.filter_cons_of_pos (by simpa using hkey), ih]

/-! ## `Remove` and `Add` on a consistent queue -/

theorem Frame.refl (k : Cache) : Frame k k := ⟨rfl, rfl, rfl, rfl, fun _ => rfl⟩

theorem Frame.trans {k k' k'' : Cache} (h1 : Frame k k') (h2 : Frame k' k'') : Frame k k'' :=
  ⟨h2.cap.trans h1.cap, h2.head.trans h1.head, h2.tail.trans h1.tail, h2.fresh.trans h1.fresh,
    fun x => (h2.payload x).trans (h1.payload x)⟩

theorem Frame.key {k k' : Cache} (h : Frame k k') (x : Nat) :
    (k'.heap x).Key = (k.heap x).Key := congrArg Prod.fst (h.payload x)

theorem Frame.value {k k' : Cache} (h : Frame k k') (x : Nat) :
    (k'.heap x).Value = (k.heap x).Value := congrArg (fun t => t.2.1) (h.payload x)

theorem Frame.ttl {k k' : Cache} (h : Frame k k') (x : Nat) :
    (k'.heap x).TTL = (k.heap x).TTL := congrArg (fun t => t.2.2) (h.payload x)

theorem Frame.index {k k' : Cache} (h : Frame k k') (l : List Nat) :
    index k'.heap l = index k.heap l := index_congr l (fun x _ => h.key x)

theorem erase_getLast {l : List Nat} (hnd : l.Nodup) (hne : l ≠ []) :
    l.erase (l.getLast hne) = l.dropLast := by
  obtain ⟨init, t, rfl⟩ : ∃ init t, l = init ++ [t] :=
    ⟨l.dropLast, l.getLast hne, (List.dropLast_append_getLast hne).symm⟩
  have hnotin : t ∉ init := by
    intro hmem
    exact (List.nodup_append.1 hnd).2.2 hmem (by simp)
  simp only [List.getLast_append_singleton, List.dropLast_concat]
  rw [List.erase_append_right _ hnotin]
  simp

/-- Operation `Remove` on a linked node: it does not panic, and the queue links the
other nodes in the same order. -/
theorem Remove_queue {k : Cache} {l : List Nat} {n : Nat} (q : QueueOK k l) (hn : n ∈ l) :
    ∃ k', Remove k n = some (k', n) ∧ QueueOK k' (l.erase n) ∧ Frame k k' ∧
      k'.SMap = Delete k.SMap (k.heap n).Key ∧ k'.Queue.Len = k.Queue.Len - 1 := by
  obtain ⟨p, x, hp, hx, _, _, hch⟩ := Chain.remove l _ q.chain q.nodup hn
  have hsub : (k.Queue.Head :: l.erase n ++ [k.Queue.Tail]).Sublist
      (k.Queue.Head :: l ++ [k.Queue.Tail]) :=
    (((List.erase_sublist n l).append_right _).cons₂ _)
  refine ⟨{ k with
      heap := setPrev (setNext k.heap p (some x)) x (some p)
      Queue := { k.Queue with Len := k.Queue.Len - 1 }
      SMap := Delete k.SMap (k.heap n).Key }, ?_, ⟨q.nodup.sublist hsub, hch, ?_,
    fun y hy => q.alloc y (hsub.subset hy)⟩, ⟨rfl, rfl, rfl, rfl, fun y => by simp⟩, rfl, rfl⟩
  · simp only [Remove, hp, hx, setPrev_Key, setNext_Key]
  · have h1 := List.length_erase_of_mem hn
    have h2 : 0 < l.length := List.length_pos_of_mem hn
    have h3 := q.len
    show k.Queue.Len - 1 = ((l.erase n).length : Int)
    rw [h1, h3]
    omega

/-- Operation `Add` on a node outside the queue: it does not panic, the node is linked
first, and the last node is unlinked when the length passes the capacity. -/
theorem Add_queue {k : Cache} {l : List Nat} {n : Nat} (q : QueueOK k l)
    (hn : n ∉ k.Queue.Head :: l ++ [k.Queue.Tail]) (hfresh : n < k.fresh) :
    ∃ k', Add k n = some (k', n) ∧ Frame k k' ∧
      ((k.Capacity < l.length + 1 ∧ QueueOK k' (n :: l).dropLast ∧
          k'.SMap = Store (Delete k.SMap (k.heap ((n :: l).getLast (by simp))).Key)
            (k.heap n).Key n) ∨
       (l.length + 1 ≤ k.Capacity ∧ QueueOK k' (n :: l) ∧
          k'.SMap = Store k.SMap (k.heap n).Key n)) := by
  obtain ⟨tmp, htmp, hch⟩ := Chain.insert q.chain q.nodup hn
  have hnd1 : (k.Queue.Head :: (n :: l) ++ [k.Queue.Tail]).Nodup := by
    have h1 := q.nodup
    simp only [List.cons_append, List.nodup_cons, List.mem_cons, List.mem_append,
      List.mem_singleton, not_or] at h1 hn ⊢
    refine ⟨⟨fun h => hn.1 h.symm, h1.1⟩, hn.2, h1.2⟩
  let k1 : Cache := { k with
    heap := setPrev (setNext (setPrev (setNext k.heap k.Queue.Head (some n)) n
      (some k.Queue.Head)) n (some tmp)) tmp (some n)
    Queue := { k.Queue with Len := k.Queue.Len + 1 } }
  have q1 : QueueOK k1 (n :: l) := by
    refine ⟨hnd1, hch, ?_, ?_⟩
    · show k.Queue.Len + 1 = ((n :: l).length : Int)
      rw [q.len]; simp
    · intro y hy
      simp only [List.cons_append, List.mem_cons] at hy
      rcases hy with h | h | h
      · exact q.alloc y (by simp [h])
      · rw [h]; exact hfresh
      · exact q.alloc y (by simp only [List.cons_append, List.mem_cons]; exact Or.inr h)
  have f1 : Frame k k1 := ⟨rfl, rfl, rfl, rfl, fun y => by simp [k1]⟩
  by_cases hcap : k.Capacity < l.length + 1
  · have hlast : (k1.heap k1.Queue.Tail).Prev = some ((n :: l).getLast (by simp)) := by
      rw [Chain.prev_eq _ _ q1.chain, List.getLast?_cons_cons,
        List.getLast?_eq_getLast _ (by simp)]
    have hmem : (n :: l).getLast (by simp) ∈ n :: l := List.getLast_mem _
    obtain ⟨k2, hr, q2, f2, hs2, _⟩ := Remove_queue q1 hmem
    have hnd2 : (n :: l).Nodup := by
      have := (List.nodup_cons.1 hnd1).2
      exact (List.nodup_append.1 this).1
    rw [erase_getLast hnd2 (by simp)] at q2
    have hgt : k1.Queue.Len > k1.Capacity := by
      show k.Queue.Len + 1 > k.Capacity
      rw [q.len]; omega
    refine ⟨{ k2 with SMap := Store k2.SMap (k2.heap n).Key n }, ?_, ?_, Or.inl ⟨hcap, ?_, ?_⟩⟩
    · simp only [Add, htmp]
      simp only [k1] at hgt hlast hr
      simp only [hgt, if_true, hlast, hr, Option.map_some']
    · exact ⟨f2.cap.trans f1.cap, f2.head, f2.tail, f2.fresh, fun y =>
        (f2.payload y).trans (f1.payload y)⟩
    · exact ⟨q2.nodup, q2.chain, q2.len, q2.alloc⟩
    · show Store k2.SMap (k2.heap n).Key n = _
      rw [hs2, f2.key, f1.key, f1.key]
  · have hle : ¬ (k1.Queue.Len > k1.Capacity) := by
      show ¬ (k.Queue.Len + 1 > k.Capacity)
      rw [q.len]; omega
    refine ⟨{ k1 with SMap := Store k1.SMap (k1.heap n).Key n }, ?_, ?_, Or.inr ⟨by omega, ?_, ?_⟩⟩
    · simp only [Add, htmp]
      simp only [k1] at hle
      simp only [hle, if_false, Option.map_some']
    · exact ⟨rfl, rfl, rfl, rfl, f1.payload⟩
    · exact ⟨q1.nodup, q1.chain, q1.len, q1.alloc⟩
    · show Store k.SMap (k1.heap n).Key n = _
      rw [f1.key]

/-! ## Queue and index in step -/

theorem fit_map {α β : Type} (f : α → β) (cap : Int) (l : List α) :
    (fit cap l).map f = fit cap (l.map f) := by
  unfold fit
  simp only [List.length_map]
  split
  · simp [List.map_dropLast]
  · rfl

theorem fit_sublist {α : Type} (cap : Int) (l : List α) : (fit cap l).Sublist l := by
  unfold fit
  split
  · exact List.dropLast_sublist l
  · exact List.Sublist.refl l

theorem fit_length_le {α : Type} (cap : Int) (l : List α) (h0 : 0 ≤ cap)
    (h : (l.length : Int) ≤ cap + 1) :
    ((fit cap l).length : Int) ≤ cap := by
  unfold fit
  by_cases hc : cap < (l.length : Int)
  · rw [if_pos hc, List.length_dropLast]; omega
  · rw [if_neg hc]; omega

theorem Linked.mem_of_load {k : Cache} {l : List Nat} (L : Linked k l) {key : String} {n : Nat}
    (h : Load k.SMap key = some n) : n ∈ l ∧ (k.heap n).Key = key := by
  have hnd : (k.SMap.map Prod.fst).Nodup := (L.smap.map Prod.fst).nodup_iff.2 L.keys
  have := (Load_eq_some hnd).1 h
  exact mem_index.1 (L.smap.subset this)

theorem Linked.load_of_mem {k : Cache} {l : List Nat} (L : Linked k l) {n : Nat}
    (h : n ∈ l) : Load k.SMap (k.heap n).Key = some n := by
  have hnd : (k.SMap.map Prod.fst).Nodup := (L.smap.map Prod.fst).nodup_iff.2 L.keys
  exact (Load_eq_some hnd).2 (L.smap.symm.subset (mem_index.2 ⟨h, rfl⟩))

theorem Linked.load_none {k : Cache} {l : List Nat} (L : Linked k l) {key : String} :
    Load k.SMap key = none ↔ key ∉ (index k.heap l).map Prod.fst := by
  rw [Load_eq_none]
  exact not_congr (L.smap.map Prod.fst).mem_iff

theorem Linked.key_not_mem_erase {k : Cache} {l : List Nat} (L : Linked k l) {n : Nat}
    (hn : n ∈ l) : (k.heap n).Key ∉ (index k.heap (l.erase n)).map Prod.fst := by
  have hp : List.Perm ((index k.heap l).map Prod.fst)
      ((index k.heap (n :: l.erase n)).map Prod.fst) := by
    unfold index
    exact ((List.perm_cons_erase hn).map _).map _
  have := hp.nodup_iff.1 L.keys
  simp only [index, List.map_cons, List.nodup_cons] at this
  exact this.1

/-- A state that agrees with `k` on the queue record, the index and the
nodes of the queue is linked the same way. -/
theorem Linked.congr_heap {k k' : Cache} {l : List Nat} (L : Linked k l)
    (hq : k'.Queue = k.Queue) (hs : k'.SMap = k.SMap) (hf : k.fresh ≤ k'.fresh)
    (hh : ∀ x ∈ k.Queue.Head :: l ++ [k.Queue.Tail], k'.heap x = k.heap x) : Linked k' l := by
  have hidx : index k'.heap l = index k.heap l :=
    index_congr l (fun x hx => by rw [hh x (by simp [hx])])
  refine ⟨⟨?_, ?_, ?_, ?_⟩, ?_, ?_⟩
  · rw [hq]; exact L.queue.nodup
  · rw [hq]
    refine Chain.congr l _ L.queue.chain (fun x hx => ?_) (fun x hx => ?_)
    · rw [hh x (by simp only [List.cons_append]; exact List.mem_append_left _ hx)]
    · rw [hh x (List.mem_cons_of_mem _ hx)]
  · rw [hq]; exact L.queue.len
  · rw [hq]; intro p hp; exact lt_of_lt_of_le (L.queue.alloc p hp) hf
  · rw [hs, hidx]; exact L.smap
  · rw [hidx]; exact L.keys

/-- Operation `Remove` on a linked, indexed node keeps queue and index in step. -/
theorem Remove_linked {k : Cache} {l : List Nat} {n : Nat} (L : Linked k l) (hn : n ∈ l) :
    ∃ k', Remove k n = some (k', n) ∧ Linked k' (l.erase n) ∧ Frame k k' ∧
      k'.Queue.Len = k.Queue.Len - 1 := by
  obtain ⟨k', hr, q', f, hs, hlen⟩ := Remove_queue L.queue hn
  refine ⟨k', hr, ⟨q', ?_, ?_⟩, f, hlen⟩
  · rw [hs, f.index, ← index_delete l L.keys hn]
    exact L.smap.filter _
  · rw [f.index]
    unfold index
    exact L.keys.sublist (((List.erase_sublist n l).map _).map _)

/-- Operation `Add` on a node outside the queue whose key is not indexed keeps queue and
index in step; the capacity is enforced on the way. -/
theorem Add_linked {k : Cache} {l : List Nat} {n : Nat} (L : Linked k l)
    (hn : n ∉ k.Queue.Head :: l ++ [k.Queue.Tail]) (hfresh : n < k.fresh)
    (hkey : (k.heap n).Key ∉ (index k.heap l).map Prod.fst) (hcap : 1 ≤ k.Capacity) :
    ∃ k', Add k n = some (k', n) ∧ Frame k k' ∧ Linked k' (fit k.Capacity (n :: l)) := by
  obtain ⟨k', ha, f, h⟩ := Add_queue L.queue hn hfresh
  have hkeys : ((index k.heap (n :: l)).map Prod.fst).Nodup := by
    simp only [index, List.map_cons, List.nodup_cons]
    exact ⟨hkey, L.keys⟩
  refine ⟨k', ha, f, ?_⟩
  rcases h with ⟨hlt, q', hs⟩ | ⟨hle, q', hs⟩
  · have hne : l ≠ [] := by
      rintro rfl
      simp at hlt
      omega
    have hfit : fit k.Capacity (n :: l) = n :: l.erase (l.getLast hne) := by
      unfold fit
      have hnd : l.Nodup := by
        have := (List.nodup_cons.1 L.queue.nodup).2
        exact (List.nodup_append.1 this).1
      rw [if_pos (by simpa using hlt), List.dropLast_cons_of_ne_nil hne, erase_getLast hnd hne]
    have hq : (n :: l).dropLast = n :: l.erase (l.getLast hne) := by
      rw [← hfit]; unfold fit; rw [if_pos (by simpa using hlt)]
    rw [hfit]
    rw [hq] at q'
    have hlast : (n :: l).getLast (by simp) = l.getLast hne := List.getLast_cons hne
    have hmem : l.getLast hne ∈ l := List.getLast_mem hne
    have hsub : (index k.heap (n :: l.erase (l.getLast hne))).Sublist (index k.heap (n :: l)) := by
      unfold index
      exact ((List.erase_sublist _ l).cons₂ n).map _
    have hd1 : List.Perm (Delete k.SMap (k.heap (l.getLast hne)).Key)
        (index k.heap (l.erase (l.getLast hne))) := by
      rw [← index_delete l L.keys hmem]
      exact L.smap.filter _
    have hd2 : Delete (Delete k.SMap (k.heap (l.getLast hne)).Key) (k.heap n).Key =
        Delete k.SMap (k.heap (l.getLast hne)).Key := by
      apply Delete_absent
      intro hin
      apply hkey
      have h1 := (hd1.map Prod.fst).subset hin
      have h2 : ((index k.heap (l.erase (l.getLast hne))).map Prod.fst).Sublist
          ((index k.heap l).map Prod.fst) := by
        unfold index
        exact ((List.erase_sublist _ l).map _).map _
      exact h2.subset h1
    refine ⟨q', ?_, ?_⟩
    · rw [hs, f.index, hlast]
      unfold Store
      rw [hd2]
      exact hd1.cons _
    · rw [f.index]
      exact hkeys.sublist (hsub.map _)
  · have hfit : fit k.Capacity (n :: l) = n :: l := by
      unfold fit
      rw [if_neg (by simp; omega)]
    rw [hfit]
    refine ⟨q', ?_, ?_⟩
    · rw [hs, f.index]
      unfold Store
      rw [Delete_absent (fun hin => hkey ((L.smap.map Prod.fst).subset hin))]
      exact L.smap.cons _
    · rw [f.index]; exact hkeys

/-! ## `Get` and `Set` on a consistent cache -/

theorem QueueOK.not_mem_of_mem_erase {k : Cache} {l : List Nat} (q : QueueOK k l) {n : Nat}
    (hn : n ∈ l) : n ∉ k.Queue.Head :: l.erase n ++ [k.Queue.Tail] := by
  have hnd := q.nodup
  rw [List.cons_append, List.nodup_cons] at hnd
  have hl : l.Nodup := (List.nodup_append.1 hnd.2).1
  intro hmem
  rw [List.cons_append, List.mem_cons, List.mem_append, List.mem_singleton] at hmem
  rcases hmem with h | h | h
  · exact hnd.1 (by rw [← h]; exact List.mem_append_left _ hn)
  · exact ((List.Nodup.mem_erase_iff hl).1 h).1 rfl
  · exact (List.nodup_append.1 hnd.2).2.2 hn (by simp [h])

/-- Operation `Get` of an indexed key that is not expired: the value comes back and the
node moves to the front. -/
theorem Get_hit {k : Cache} {l : List Nat} (L : Linked k l) (hcap : k.Queue.Len ≤ k.Capacity)
    {key : String} {n : Nat} {now : Int} (hl : Load k.SMap key = some n)
    (hexp : isExpired (k.heap n).TTL now = false) :
    ∃ k', Get k now key = some (k', (k.heap n).Value, true) ∧ Linked k' (n :: l.erase n) ∧
      Frame k k' ∧ k'.Queue.Len = k.Queue.Len := by
  obtain ⟨hn, _⟩ := L.mem_of_load hl
  obtain ⟨k1, hr, L1, f1, hlen1⟩ := Remove_linked L hn
  have hlen : ((l.erase n).length : Int) + 1 = l.length := by
    have h1 := List.length_erase_of_mem hn
    have h2 : 0 < l.length := List.length_pos_of_mem hn
    rw [h1]; omega
  have hpos : 1 ≤ k1.Capacity := by
    rw [f1.cap]
    have h2 : 0 < l.length := List.length_pos_of_mem hn
    have := L.queue.len
    omega
  have hnot : n ∉ k1.Queue.Head :: l.erase n ++ [k1.Queue.Tail] := by
    rw [f1.head, f1.tail]; exact L.queue.not_mem_of_mem_erase hn
  have hfr : n < k1.fresh := by
    rw [f1.fresh]; exact L.queue.alloc n (by simp [hn])
  have hkey : (k1.heap n).Key ∉ (index k1.heap (l.erase n)).map Prod.fst := by
    rw [f1.key, f1.index]; exact L.key_not_mem_erase hn
  obtain ⟨k2, ha, f2, L2⟩ := Add_linked L1 hnot hfr hkey hpos
  have hfit : fit k1.Capacity (n :: l.erase n) = n :: l.erase n := by
    unfold fit
    rw [if_neg]
    rw [f1.cap]
    have := L.queue.len
    simp only [List.length_cons, Nat.cast_add, Nat.cast_one]
    omega
  rw [hfit] at L2
  refine ⟨k2, ?_, L2, f1.trans f2, ?_⟩
  · simp only [Get, hl, hexp, hr, ha, Bool.false_eq_true, if_false]
    rw [f2.value, f1.value]
  · rw [L2.queue.len, L.queue.len]
    simp only [List.length_cons, Nat.cast_add, Nat.cast_one]
    omega

/-- Operation `Get` of an indexed key whose expiry is past: not found, and the node is
unlinked and deindexed. -/
theorem Get_expired {k : Cache} {l : List Nat} (L : Linked k l)
    {key : String} {n : Nat} {now : Int} (hl : Load k.SMap key = some n)
    (hexp : isExpired (k.heap n).TTL now = true) :
    ∃ k', Get k now key = some (k', GoAny.nil, false) ∧ Linked k' (l.erase n) ∧
      Frame k k' ∧ k'.Queue.Len = k.Queue.Len - 1 := by
  obtain ⟨hn, _⟩ := L.mem_of_load hl
  obtain ⟨k1, hr, L1, f1, hlen1⟩ := Remove_linked L hn
  refine ⟨k1, ?_, L1, f1, hlen1⟩
  simp only [Get, hl, hexp, hr, if_true, Option.map_some']

/-- Operation `Get` of a key that is not indexed: not found, nothing changes. -/
theorem Get_miss {k : Cache} {key : String} {now : Int} (hl : Load k.SMap key = none) :
    Get k now key = some (k, GoAny.nil, false) := by
  simp only [Get, hl]

/-- Operation `Set` of an indexed key: the same node, with the new value and expiry, is
moved to the front; nothing is evicted. -/
theorem Set_existing {k : Cache} {l : List Nat} (L : Linked k l)
    (hcap : k.Queue.Len ≤ k.Capacity) (value : GoAny) {key : String} {n : Nat} {now : Int}
    {ttl : Option (List Int)} {exp : Option Int} (hexp : expiresAt now ttl = some exp)
    (hl : Load k.SMap key = some n) :
    ∃ k', Set k now key value ttl = some k' ∧ Linked k' (n :: l.erase n) ∧
      k'.Capacity = k.Capacity ∧ k'.Queue.Head = k.Queue.Head ∧
      k'.Queue.Tail = k.Queue.Tail ∧ k'.fresh = k.fresh ∧ k'.Queue.Len = k.Queue.Len ∧
      ∀ x, payload (k'.heap x) = if x = n then (key, value, exp) else payload (k.heap x) := by
  obtain ⟨hn, hk⟩ := L.mem_of_load hl
  obtain ⟨k1, hr, L1, f1, hlen1⟩ := Remove_linked L hn
  have hnot1 := L.queue.not_mem_of_mem_erase hn
  let k2 : Cache := { k1 with heap := setTTL (setValue k1.heap n value) n exp }
  have hne : ∀ x ∈ k1.Queue.Head :: l.erase n ++ [k1.Queue.Tail], x ≠ n := by
    intro x hx hxn
    rw [f1.head, f1.tail, hxn] at hx
    exact hnot1 hx
  have L2 : Linked k2 (l.erase n) := by
    refine L1.congr_heap rfl rfl (le_refl _) (fun x hx => ?_)
    show setTTL (setValue k1.heap n value) n exp x = k1.heap x
    simp [setTTL, setValue, hne x hx]
  have hlen : ((l.erase n).length : Int) + 1 = l.length := by
    have h1 := List.length_erase_of_mem hn
    have h2 : 0 < l.length := List.length_pos_of_mem hn
    rw [h1]; omega
  have hpos : 1 ≤ k2.Capacity := by
    show 1 ≤ k1.Capacity
    rw [f1.cap]
    have h2 : 0 < l.length := List.length_pos_of_mem hn
    have := L.queue.len
    omega
  have hnot : n ∉ k2.Queue.Head :: l.erase n ++ [k2.Queue.Tail] := by
    show n ∉ k1.Queue.Head :: l.erase n ++ [k1.Queue.Tail]
    rw [f1.head, f1.tail]; exact hnot1
  have hfr : n < k2.fresh := by
    show n < k1.fresh
    rw [f1.fresh]; exact L.queue.alloc n (by simp [hn])
  have hkey2 : ∀ x, (k2.heap x).Key = (k.heap x).Key := by
    intro x
    show (setTTL (setValue k1.heap n value) n exp x).Key = _
    rw [setTTL_Key, setValue_Key, f1.key]
  have hkey : (k2.heap n).Key ∉ (index k2.heap (l.erase n)).map Prod.fst := by
    rw [hkey2, index_congr _ (fun x _ => hkey2 x)]; exact L.key_not_mem_erase hn
  obtain ⟨k3, ha, f3, L3⟩ := Add_linked L2 hnot hfr hkey hpos
  have hfit : fit k2.Capacity (n :: l.erase n) = n :: l.erase n := by
    unfold fit
    rw [if_neg]
    show ¬ k1.Capacity < _
    rw [f1.cap]
    have := L.queue.len
    simp only [List.length_cons, Nat.cast_add, Nat.cast_one]
    omega
  rw [hfit] at L3
  refine ⟨k3, ?_, L3, f3.cap.trans f1.cap, f3.head.trans f1.head, f3.tail.trans f1.tail,
    f3.fresh.trans f1.fresh, ?_, fun x => ?_⟩
  · simp only [Set, hexp, hl, hr]
    simp only [k2] at ha
    simp only [ha, Option.map_some']
  · rw [L3.queue.len, L.queue.len]
    simp only [List.length_cons, Nat.cast_add, Nat.cast_one]
    omega
  · rw [f3.payload]
    show payload (setTTL (setValue k1.heap n value) n exp x) = _
    by_cases hx : x = n
    · subst hx
      have := f1.key x
      simp only [payload, setTTL, setValue, if_true, this, hk]
    · have := f1.payload x
      simp only [payload, setTTL, setValue, hx, if_false] at this ⊢
      exact this

/-- Operation `Set` of a key that is not indexed: a fresh node goes to the front, and
the last node is evicted when the queue is longer than the capacity. -/
theorem Set_new {k : Cache} {l : List Nat} (L : Linked k l) (hpos : 1 ≤ k.Capacity)
    (value : GoAny) {key : String} {now : Int}
    {ttl : Option (List Int)} {exp : Option Int} (hexp : expiresAt now ttl = some exp)
    (hl : Load k.SMap key = none) :
    ∃ k', Set k now key value ttl = some k' ∧ Linked k' (fit k.Capacity (k.fresh :: l)) ∧
      k'.Capacity = k.Capacity ∧ k'.Queue.Head = k.Queue.Head ∧
      k'.Queue.Tail = k.Queue.Tail ∧ k'.fresh = k.fresh + 1 ∧
      ∀ x, payload (k'.heap x) =
        if x = k.fresh then (key, value, exp) else payload (k.heap x) := by
  let k1 : Cache :=
    { k with heap := setNode k.heap k.fresh ⟨key, value, none, none, exp⟩
             fresh := k.fresh + 1 }
  have hne : ∀ x ∈ k.Queue.Head :: l ++ [k.Queue.Tail], x ≠ k.fresh := by
    intro x hx
    exact Nat.ne_of_lt (L.queue.alloc x hx)
  have L1 : Linked k1 l := by
    refine L.congr_heap rfl rfl (Nat.le_succ _) (fun x hx => ?_)
    show setNode k.heap k.fresh _ x = k.heap x
    simp [setNode, hne x hx]
  have hnot : k.fresh ∉ k1.Queue.Head :: l ++ [k1.Queue.Tail] := fun h => hne _ h rfl
  have hidx : index k1.heap l = index k.heap l := by
    apply index_congr
    intro x hx
    show (setNode k.heap k.fresh _ x).Key = _
    simp [setNode, hne x (by simp [hx])]
  have hkey : (k1.heap k.fresh).Key ∉ (index k1.heap l).map Prod.fst := by
    rw [hidx]
    show (setNode k.heap k.fresh _ k.fresh).Key ∉ _
    simp only [setNode, if_true]
    exact L.load_none.1 hl
  obtain ⟨k2, ha, f2, L2⟩ := Add_linked L1 hnot (Nat.lt_succ_self _) hkey hpos
  refine ⟨k2, ?_, L2, f2.cap, f2.head, f2.tail, f2.fresh, fun x => ?_⟩
  · simp only [Set, hexp, hl]
    simp only [k1] at ha
    simp only [ha, Option.map_some']
  · rw [f2.payload]
    show payload (setNode k.heap k.fresh _ x) = _
    by_cases hx : x = k.fresh
    · simp [setNode, hx, payload]
    · simp [setNode, hx]

/-! ## Walking the queue, and the sweep -/

theorem walk_chain {k : Cache} :
    ∀ (l : List Nat) (a fuel : Nat), Chain k.heap a l k.Queue.Tail → k.Queue.Tail ∉ l →
      l.length < fuel → walk k fuel (k.heap a).Next = l
  | [], a, fuel, hc, _, hf => by
    obtain ⟨f, rfl⟩ : ∃ f, fuel = f + 1 := ⟨fuel - 1, by simp at hf; omega⟩
    rw [hc.1]
    simp [walk]
  | x :: xs, a, fuel, hc, ht, hf => by
    obtain ⟨f, rfl⟩ : ∃ f, fuel = f + 1 := ⟨fuel - 1, by simp at hf; omega⟩
    have hx : x ≠ k.Queue.Tail := by
      rintro rfl
      exact ht (by simp)
    rw [hc.1]
    simp only [walk, hx, if_false]
    rw [walk_chain xs x f hc.2.2 (fun h => ht (List.mem_cons_of_mem _ h))
      (by simp at hf; omega)]

theorem length_le_of_nodup_lt {l : List Nat} {b : Nat} (hnd : l.Nodup) (hlt : ∀ p ∈ l, p < b) :
    l.length ≤ b := by
  have h1 : l.toFinset ⊆ Finset.range b := by
    intro p hp
    rw [List.mem_toFinset] at hp
    exact Finset.mem_range.2 (hlt p hp)
  have h2 := Finset.card_le_card h1
  rw [List.toFinset_card_of_nodup hnd, Finset.card_range] at h2
  exact h2

/-- Walking `Next` from the head until the tail lists exactly the linked nodes. -/
theorem QueueOK.queueNodes_eq {k : Cache} {l : List Nat} (q : QueueOK k l) :
    queueNodes k = l := by
  have hlen := length_le_of_nodup_lt q.nodup q.alloc
  have hnd := q.nodup
  rw [List.cons_append, List.nodup_cons] at hnd
  apply walk_chain l _ _ q.chain
  · intro h
    exact (List.nodup_append.1 hnd.2).2.2 h (by simp)
  · simp at hlen
    omega

theorem Linked.unique {k : Cache} {l l' : List Nat} (L : Linked k l) (L' : Linked k l') :
    l = l' := by
  rw [← L.queue.queueNodes_eq, ← L'.queue.queueNodes_eq]

theorem Chain.next_mid {h : Nat → Node} {b x : Nat} {xs : List Nat} :
    ∀ (pre : List Nat) (a : Nat), Chain h a (pre ++ x :: xs) b →
      (h x).Next = (xs ++ [b]).head? ∧ Chain h x xs b
  | [], _, hc => ⟨Chain.next_eq hc.2.2, hc.2.2⟩
  | _ :: ps, _, hc => Chain.next_mid ps _ hc.2.2

theorem sweepList_congr {e e' : Nat → Bool} :
    ∀ (l : List Nat) (i len : Int), (∀ p ∈ l, e p = e' p) →
      sweepList e l i len = sweepList e' l i len
  | [], _, _, _ => rfl
  | x :: xs, i, len, h => by
    simp only [sweepList]
    rw [h x (by simp), sweepList_congr xs (i + 1) (len - 1) (fun p hp => h p (by simp [hp])),
      sweepList_congr xs (i + 1) len (fun p hp => h p (by simp [hp]))]

theorem sweepList_sublist (e : Nat → Bool) :
    ∀ (l : List Nat) (i len : Int), (sweepList e l i len).Sublist l
  | [], _, _ => List.Sublist.refl _
  | x :: xs, i, len => by
    simp only [sweepList]
    split
    · split
      · exact (sweepList_sublist e xs _ _).cons _
      · exact (sweepList_sublist e xs _ _).cons₂ _
    · exact List.Sublist.refl _

theorem sweepList_keeps (e : Nat → Bool) :
    ∀ (l : List Nat) (i len : Int) (p : Nat), p ∈ l → e p = false → p ∈ sweepList e l i len
  | [], _, _, _, hp, _ => by simp at hp
  | x :: xs, i, len, p, hp, he => by
    simp only [sweepList]
    split
    · rcases List.mem_cons.1 hp with h | h
      · subst h
        simp [he]
      · split
        · exact sweepList_keeps e xs _ _ p h he
        · exact List.mem_cons_of_mem _ (sweepList_keeps e xs _ _ p h he)
    · exact hp

/-- The loop of `RemoveExpired` from the middle of a pass: `pre` are the nodes
already visited and kept, `rest` the nodes still ahead. -/
theorem sweepLoop_spec (now : Int) :
    ∀ (rest pre : List Nat) (fuel : Nat) (k : Cache) (i : Int),
      Linked k (pre ++ rest) → (pre.length : Int) ≤ i → k.Queue.Len - i ≤ fuel →
      ∃ k', sweepLoop fuel k now (rest ++ [k.Queue.Tail]).head? i = some k' ∧
        Linked k' (pre ++ sweepList (fun p => isExpired (k.heap p).TTL now) rest i k.Queue.Len) ∧
        Frame k k'
  | [], pre, fuel, k, i, L, hi, _ => by
    have hlen := L.queue.len
    simp only [List.append_nil] at hlen
    have hnot : ¬ i < k.Queue.Len := by omega
    refine ⟨k, ?_, by simpa [sweepList] using L, Frame.refl k⟩
    cases fuel <;> simp [sweepLoop, hnot]
  | x :: xs, pre, fuel, k, i, L, hi, hf => by
    by_cases hlt : i < k.Queue.Len
    · obtain ⟨f, rfl⟩ : ∃ f, fuel = f + 1 := ⟨fuel - 1, by omega⟩
      have hmid := Chain.next_mid pre _ L.queue.chain
      have hxm : x ∈ pre ++ x :: xs := by simp
      have hndl : (pre ++ x :: xs).Nodup := by
        have := L.queue.nodup
        rw [List.cons_append, List.nodup_cons] at this
        exact (List.nodup_append.1 this.2).1
      have hxpre : x ∉ pre := by
        intro h
        exact (List.nodup_append.1 hndl).2.2 h (by simp) 
      by_cases hexp : isExpired (k.heap x).TTL now = true
      · obtain ⟨k1, hr, L1, f1, hlen1⟩ := Remove_linked L hxm
        have herase : (pre ++ x :: xs).erase x = pre ++ xs := by
          rw [List.erase_append_right _ hxpre, List.erase_cons_head]
        rw [herase] at L1
        obtain ⟨k2, hs, L2, f2⟩ := sweepLoop_spec now xs pre f k1 (i + 1) L1 (by omega)
          (by rw [hlen1]; push_cast at hf; omega)
        refine ⟨k2, ?_, ?_, f1.trans f2⟩
        · simp only [List.cons_append, List.head?_cons, sweepLoop, hlt, if_true, hexp, hr,
            Option.map_some', hmid.1]
          rw [f1.tail] at hs
          exact hs
        · simp only [sweepList, hlt, if_true, hexp]
          rw [hlen1, sweepList_congr xs _ _ (fun p _ => by rw [f1.ttl])] at L2
          exact L2
      · have hexp' : isExpired (k.heap x).TTL now = false := by
          simpa using hexp
        have L1 : Linked k ((pre ++ [x]) ++ xs) := by simpa using L
        obtain ⟨k2, hs, L2, f2⟩ := sweepLoop_spec now xs (pre ++ [x]) f k (i + 1) L1
          (by simp; omega) (by push_cast at hf; omega)
        refine ⟨k2, ?_, ?_, f2⟩
        · simp only [List.cons_append, List.head?_cons, sweepLoop, hlt, if_true, hexp',
            Bool.false_eq_true, if_false, hmid.1]
          exact hs
        · simp only [sweepList, hlt, if_true, hexp', Bool.false_eq_true, if_false]
          simpa using L2
    · refine ⟨k, ?_, by simpa [sweepList, hlt] using L, Frame.refl k⟩
      cases fuel <;> simp [sweepLoop, hlt]

/-- Operation `RemoveExpired` on a consistent cache does not panic, stops by its own
loop test, and leaves the cache consistent. -/
theorem RemoveExpired_spec {k : Cache} {l : List Nat} (L : Linked k l) (now : Int) :
    ∃ k', RemoveExpired k now = some k' ∧
      Linked k' (sweepList (fun p => isExpired (k.heap p).TTL now) l 0 k.Queue.Len) ∧
      Frame k k' := by
  have h := sweepLoop_spec now l [] k.Queue.Len.toNat k 0 (by simpa using L) (by simp)
    (by have := Int.self_le_toNat k.Queue.Len; omega)
  obtain ⟨k', hs, L', f⟩ := h
  refine ⟨k', ?_, by simpa using L', f⟩
  unfold RemoveExpired
  rw [Chain.next_eq L.queue.chain]
  exact hs

/-! ## Reachable states are well-formed -/

/-- A fresh cache: the two sentinels linked to each other, nothing indexed. -/
theorem NewCache_linked (cap : Int) : Linked (NewCache cap) [] := by
  refine ⟨⟨?_, ?_, rfl, ?_⟩, ?_, ?_⟩
  · simp [NewCache]
  · exact ⟨by simp [NewCache], by simp [NewCache]⟩
  · simp [NewCache]
  · simp [NewCache, index]
  · simp [index]

theorem NewCache_wellFormed {cap : Int} (hcap : 1 ≤ cap) : WellFormed (NewCache cap) :=
  ⟨[], NewCache_linked cap, hcap, by show (0 : Int) ≤ cap; omega⟩

theorem expiresAt_some (now : Int) {ttl : Option (List Int)} (h : ttl ≠ some []) :
    ∃ exp, expiresAt now ttl = some exp := by
  cases ttl with
  | none => exact ⟨none, rfl⟩
  | some ds =>
    cases ds with
    | nil => exact absurd rfl h
    | cons d ds => exact ⟨some ((now + d) / 1000000000), rfl⟩

theorem Set_none_of_expiresAt {k : Cache} {now : Int} {key : String} {value : GoAny}
    {ttl : Option (List Int)} (h : expiresAt now ttl = none) :
    Set k now key value ttl = none := by
  simp only [Set, h]

/-- Operation `Set` on a well-formed cache returns, unless the variadic `ttl` is an
empty non-nil slice, and the result is well-formed. -/
theorem WellFormed.set {k : Cache} (w : WellFormed k) (now : Int) (key : String)
    (value : GoAny) {ttl : Option (List Int)} {exp : Option Int}
    (hexp : expiresAt now ttl = some exp) :
    ∃ k', Set k now key value ttl = some k' ∧ WellFormed k' ∧ k'.Capacity = k.Capacity := by
  obtain ⟨l, L, hpos, hle⟩ := w
  cases hl : Load k.SMap key with
  | some n =>
    obtain ⟨k', hs, L', hc, _, _, _, hlen, _⟩ := Set_existing L hle value hexp hl
    exact ⟨k', hs, ⟨_, L', by rw [hc]; exact hpos, by rw [hc, hlen]; exact hle⟩, hc⟩
  | none =>
    obtain ⟨k', hs, L', hc, _⟩ := Set_new L hpos value hexp hl
    refine ⟨k', hs, ⟨_, L', by rw [hc]; exact hpos, ?_⟩, hc⟩
    rw [L'.queue.len, hc]
    apply fit_length_le _ _ (by omega)
    have := L.queue.len
    simp only [List.length_cons, Nat.cast_add, Nat.cast_one]
    omega

/-- Operation `Get` on a well-formed cache returns, and the result is well-formed. -/
theorem WellFormed.get {k : Cache} (w : WellFormed k) (now : Int) (key : String) :
    ∃ k' v found, Get k now key = some (k', v, found) ∧ WellFormed k' ∧
      k'.Capacity = k.Capacity := by
  obtain ⟨l, L, hpos, hle⟩ := w
  cases hl : Load k.SMap key with
  | none => exact ⟨k, _, _, Get_miss hl, ⟨l, L, hpos, hle⟩, rfl⟩
  | some n =>
    cases hexp : isExpired (k.heap n).TTL now with
    | false =>
      obtain ⟨k', hg, L', f, hlen⟩ := Get_hit L hle hl hexp
      exact ⟨k', _, _, hg, ⟨_, L', by rw [f.cap]; exact hpos, by rw [f.cap, hlen]; exact hle⟩,
        f.cap⟩
    | true =>
      obtain ⟨k', hg, L', f, hlen⟩ := Get_expired L hl hexp
      exact ⟨k', _, _, hg, ⟨_, L', by rw [f.cap]; exact hpos, by rw [f.cap, hlen]; omega⟩,
        f.cap⟩

/-- Operation `RemoveExpired` on a well-formed cache returns, and the result is
well-formed. -/
theorem WellFormed.sweep {k : Cache} (w : WellFormed k) (now : Int) :
    ∃ k', RemoveExpired k now = some k' ∧ WellFormed k' ∧ k'.Capacity = k.Capacity := by
  obtain ⟨l, L, hpos, hle⟩ := w
  obtain ⟨k', hs, L', f⟩ := RemoveExpired_spec L now
  refine ⟨k', hs, ⟨_, L', by rw [f.cap]; exact hpos, ?_⟩, f.cap⟩
  rw [L'.queue.len, f.cap]
  have h1 := (sweepList_sublist (fun p => isExpired (k.heap p).TTL now) l 0 k.Queue.Len).length_le
  have h2 := L.queue.len
  omega

/-- Operation `Remove` of an indexed node on a well-formed cache returns, and the result
is well-formed. -/
theorem WellFormed.remove_indexed {k : Cache} (w : WellFormed k) {key : String} {n : Nat}
    (hl : Load k.SMap key = some n) :
    ∃ k', Remove k n = some (k', n) ∧ WellFormed k' ∧ k'.Capacity = k.Capacity := by
  obtain ⟨l, L, hpos, hle⟩ := w
  obtain ⟨hn, _⟩ := L.mem_of_load hl
  obtain ⟨k', hr, L', f, hlen⟩ := Remove_linked L hn
  exact ⟨k', hr, ⟨_, L', by rw [f.cap]; exact hpos, by rw [f.cap, hlen]; omega⟩, f.cap⟩

/-- Every reachable state of a cache of positive capacity is well-formed, and
its capacity is the one given to `NewCache`. -/
theorem Reachable.wellFormed {cap : Int} (hcap : 1 ≤ cap) {k : Cache} (hr : Reachable cap k) :
    WellFormed k ∧ k.Capacity = cap := by
  induction hr with
  | init => exact ⟨NewCache_wellFormed hcap, rfl⟩
  | set now key value ttl _ hs ih =>
    cases hexp : expiresAt now ttl with
    | none => rw [Set_none_of_expiresAt hexp] at hs; exact absurd hs (by simp)
    | some exp =>
      obtain ⟨k', hs', w', hc⟩ := ih.1.set now key value hexp
      rw [hs] at hs'
      cases hs'
      exact ⟨w', hc.trans ih.2⟩
  | get now key v found _ hg ih =>
    obtain ⟨k', v', found', hg', w', hc⟩ := ih.1.get now key
    rw [hg] at hg'
    cases hg'
    exact ⟨w', hc.trans ih.2⟩
  | sweep now _ hs ih =>
    obtain ⟨k', hs', w', hc⟩ := ih.1.sweep now
    rw [hs] at hs'
    cases hs'
    exact ⟨w', hc.trans ih.2⟩
  | remove key n n' _ hl hrm ih =>
    obtain ⟨k', hr', w', hc⟩ := ih.1.remove_indexed hl
    rw [hrm] at hr'
    cases hr'
    exact ⟨w', hc.trans ih.2⟩

/-- The index of a consistent cache, read through `Load` and `lenSyncMap`. -/
theorem Linked.index_iff {k : Cache} {l : List Nat} (L : Linked k l) :
    (∀ key n, Load k.SMap key = some n ↔ (n ∈ queueNodes k ∧ (k.heap n).Key = key)) ∧
      lenSyncMap k.SMap = k.Queue.Len := by
  rw [L.queue.queueNodes_eq]
  refine ⟨fun key n => ⟨L.mem_of_load, ?_⟩, ?_⟩
  · rintro ⟨hn, rfl⟩
    exact L.load_of_mem hn
  · unfold lenSyncMap
    rw [L.smap.length_eq, L.queue.len]
    simp [index]

/-! ## What `Get` and `Set` answer -/

theorem Linked.load_iff {k : Cache} {l : List Nat} (L : Linked k l) (key : String) (n : Nat) :
    Load k.SMap key = some n ↔ (n ∈ l ∧ (k.heap n).Key = key) :=
  ⟨L.mem_of_load, fun h => by rw [← h.2]; exact L.load_of_mem h.1⟩

/-- Two consistent states with the same linked nodes under the same keys
answer every `Load` alike. -/
theorem Linked.load_congr {k k' : Cache} {l l' : List Nat} (L : Linked k l) (L' : Linked k' l')
    (hmem : ∀ p, p ∈ l' ↔ p ∈ l) (hkey : ∀ p, (k'.heap p).Key = (k.heap p).Key)
    (key : String) : Load k'.SMap key = Load k.SMap key := by
  apply Option.ext
  intro n
  rw [Option.mem_def, Option.mem_def, L.load_iff, L'.load_iff, hmem, hkey]

theorem mem_cons_erase {l : List Nat} {n : Nat} (hn : n ∈ l) (p : Nat) :
    p ∈ n :: l.erase n ↔ p ∈ l := (List.perm_cons_erase hn).symm.mem_iff

theorem map_key_erase {h : Nat → Node} {n : Nat} :
    ∀ (l : List Nat), ((index h l).map Prod.fst).Nodup → n ∈ l →
      (l.erase n).map (fun p => (h p).Key) = (l.map (fun p => (h p).Key)).erase (h n).Key
  | [], _, hn => by simp at hn
  | c :: l, hnd, hn => by
    have hnd' : (h c).Key ∉ (index h l).map Prod.fst ∧ ((index h l).map Prod.fst).Nodup := by
      simp only [index, List.map_cons, List.nodup_cons] at hnd ⊢
      exact hnd
    by_cases hcn : c = n
    · subst hcn
      simp
    · have hn' : n ∈ l := by
        rcases List.mem_cons.1 hn with h1 | h1
        · exact absurd h1.symm hcn
        · exact h1
      have hkey : (h c).Key ≠ (h n).Key := by
        intro heq
        apply hnd'.1
        rw [index_keys, heq]
        exact List.mem_map.2 ⟨n, hn', rfl⟩
      have hne : ¬ (c == n) = true := by simpa using hcn
      have hne' : ¬ ((h c).Key == (h n).Key) = true := by simpa using hkey
      rw [List.erase_cons_tail hne, List.map_cons, List.map_cons, List.erase_cons_tail hne',
        map_key_erase l hnd'.2 hn']

theorem mem_fit_head {cap : Int} (hcap : 1 ≤ cap) (x : Nat) (l : List Nat) :
    x ∈ fit cap (x :: l) := by
  unfold fit
  split
  · cases l with
    | nil => rename_i h; simp at h; omega
    | cons y ys => simp [List.dropLast]
  · simp

/-- After `Set` on a well-formed cache the key is indexed, at a node that
holds the value and the expiry of this call. -/
theorem WellFormed.set_lookup {k : Cache} (w : WellFormed k) (now : Int) (key : String)
    (value : GoAny) {ttl : Option (List Int)} {exp : Option Int}
    (hexp : expiresAt now ttl = some exp) :
    ∃ k' n, Set k now key value ttl = some k' ∧ WellFormed k' ∧ Load k'.SMap key = some n ∧
      (k'.heap n).Value = value ∧ (k'.heap n).TTL = exp := by
  obtain ⟨k', hs, w', _⟩ := w.set now key value hexp
  obtain ⟨l, L, hpos, hle⟩ := w
  cases hl : Load k.SMap key with
  | some n =>
    obtain ⟨k'', hs', L', _, _, _, _, _, hp⟩ := Set_existing L hle value hexp hl
    rw [hs] at hs'
    cases hs'
    have hpn := hp n
    rw [if_pos rfl] at hpn
    have hk : (k'.heap n).Key = key := congrArg Prod.fst hpn
    refine ⟨k', n, hs, w', ?_, congrArg (fun t => t.2.1) hpn, congrArg (fun t => t.2.2) hpn⟩
    rw [← hk]
    exact L'.load_of_mem (by simp)
  | none =>
    obtain ⟨k'', hs', L', _, _, _, _, hp⟩ := Set_new L hpos value hexp hl
    rw [hs] at hs'
    cases hs'
    have hpn := hp k.fresh
    rw [if_pos rfl] at hpn
    have hk : (k'.heap k.fresh).Key = key := congrArg Prod.fst hpn
    refine ⟨k', k.fresh, hs, w', ?_, congrArg (fun t => t.2.1) hpn,
      congrArg (fun t => t.2.2) hpn⟩
    rw [← hk]
    exact L'.load_of_mem (mem_fit_head hpos _ _)

/-- Operation `Get` on a well-formed cache at an indexed key: the answer is decided by
the node's expiry alone. -/
theorem WellFormed.get_indexed {k : Cache} (w : WellFormed k) {key : String} {n : Nat}
    (hl : Load k.SMap key = some n) (now : Int) :
    ∃ k', Get k now key = some (k',
      if isExpired (k.heap n).TTL now then GoAny.nil else (k.heap n).Value,
      !isExpired (k.heap n).TTL now) := by
  obtain ⟨l, L, hpos, hle⟩ := w
  cases hexp : isExpired (k.heap n).TTL now with
  | false =>
    obtain ⟨k', hg, _⟩ := Get_hit L hle hl hexp
    exact ⟨k', by simpa using hg⟩
  | true =>
    obtain ⟨k', hg, _⟩ := Get_expired L hl hexp
    exact ⟨k', by simpa using hg⟩


/-- A sequence of `Set` calls on a well-formed cache returns when no call
passes an empty non-nil `ttl`, and the result is well-formed. -/
theorem WellFormed.setAll :
    ∀ (calls : List SetCall) {k : Cache}, WellFormed k → (∀ c ∈ calls, c.ttl ≠ some []) →
      ∃ k', SetAll k calls = some k' ∧ WellFormed k' ∧ k'.Capacity = k.Capacity
  | [], k, w, _ => ⟨k, rfl, w, rfl⟩
  | c :: cs, k, w, h => by
    obtain ⟨exp, hexp⟩ := expiresAt_some c.now (h c (by simp))
    obtain ⟨k1, hs, w1, hc1⟩ := w.set c.now c.key c.value hexp
    obtain ⟨k2, hs2, w2, hc2⟩ := WellFormed.setAll cs w1 (fun c' hc' => h c' (by simp [hc']))
    exact ⟨k2, by simp only [SetAll, hs, hs2], w2, hc2.trans hc1⟩

theorem WellFormed.setAll_getD {calls : List SetCall} {k : Cache} (w : WellFormed k)
    (h : ∀ c ∈ calls, c.ttl ≠ some []) : WellFormed ((SetAll k calls).getD k) := by
  obtain ⟨k', hs, w', _⟩ := w.setAll calls h
  rw [hs]
  exact w'

/-! ## Sequences of `Set` calls -/

theorem keys_eq_index (h : Nat → Node) (l : List Nat) :
    l.map (fun p => (h p).Key) = (index h l).map Prod.fst := (index_keys h l).symm

theorem fit_eq_take {α : Type} (cap : Int) (l : List α) (h0 : 0 ≤ cap)
    (h : (l.length : Int) ≤ cap + 1) : fit cap l = l.take cap.toNat := by
  unfold fit
  by_cases hc : cap < (l.length : Int)
  · rw [if_pos hc, List.dropLast_eq_take]
    congr 1
    omega
  · rw [if_neg hc, List.take_of_length_le (by omega)]

theorem take_append_take {α : Type} (n : Nat) (a b : List α) :
    (a ++ b.take n).take n = (a ++ b).take n := by
  rw [List.take_append_eq_append_take, List.take_append_eq_append_take, List.take_take]
  congr 2
  omega

/-- The keys of the queue after `Set` of a key that is not indexed. -/
theorem Set_new_keys {k : Cache} {l : List Nat} (L : Linked k l) (hpos : 1 ≤ k.Capacity)
    (hle : k.Queue.Len ≤ k.Capacity) (value : GoAny) {key : String} {now : Int}
    {ttl : Option (List Int)} {exp : Option Int} (hexp : expiresAt now ttl = some exp)
    (hl : Load k.SMap key = none) :
    ∃ k' l', Set k now key value ttl = some k' ∧ Linked k' l' ∧ k'.Capacity = k.Capacity ∧
      k'.Queue.Len ≤ k'.Capacity ∧
      l'.map (fun p => (k'.heap p).Key) =
        (key :: l.map (fun p => (k.heap p).Key)).take k.Capacity.toNat := by
  obtain ⟨k', hs, L', hc, _, _, _, hp⟩ := Set_new L hpos value hexp hl
  have hlen := L.queue.len
  have hkeys : ∀ p ∈ l, (k'.heap p).Key = (k.heap p).Key := by
    intro p hpl
    have := congrArg Prod.fst (hp p)
    rw [if_neg (Nat.ne_of_lt (L.queue.alloc p (by simp [hpl])))] at this
    exact this
  have hkf : (k'.heap k.fresh).Key = key := by
    have := congrArg Prod.fst (hp k.fresh)
    rw [if_pos rfl] at this
    exact this
  refine ⟨k', _, hs, L', hc, ?_, ?_⟩
  · rw [L'.queue.len, hc]
    apply fit_length_le _ _ (by omega)
    simp only [List.length_cons, Nat.cast_add, Nat.cast_one]
    omega
  · rw [fit_map, List.map_cons, hkf, List.map_congr_left hkeys]
    apply fit_eq_take _ _ (by omega)
    simp only [List.length_cons, List.length_map, Nat.cast_add, Nat.cast_one]
    omega

/-- Distinct keys, none of them indexed, set in order: the queue afterwards
holds the newest keys first, cut at the capacity. -/
theorem SetAll_distinct :
    ∀ (calls : List SetCall) (k : Cache) (l : List Nat), Linked k l → 1 ≤ k.Capacity →
      k.Queue.Len ≤ k.Capacity → (∀ c ∈ calls, c.ttl ≠ some []) →
      (calls.map SetCall.key).Nodup →
      (∀ c ∈ calls, c.key ∉ l.map (fun p => (k.heap p).Key)) →
      ∃ k' l', SetAll k calls = some k' ∧ Linked k' l' ∧ k'.Capacity = k.Capacity ∧
        k'.Queue.Len ≤ k'.Capacity ∧
        l'.map (fun p => (k'.heap p).Key) =
          ((calls.map SetCall.key).reverse ++ l.map (fun p => (k.heap p).Key)).take
            k.Capacity.toNat
  | [], k, l, L, _, hle, _, _, _ => by
    refine ⟨k, l, rfl, L, rfl, hle, ?_⟩
    simp only [List.map_nil, List.reverse_nil, List.nil_append]
    rw [List.take_of_length_le]
    have := L.queue.len
    simp only [List.length_map]
    omega
  | c :: cs, k, l, L, hpos, hle, httl, hnd, hnot => by
    obtain ⟨exp, hexp⟩ := expiresAt_some c.now (httl c (by simp))
    have hl : Load k.SMap c.key = none := by
      rw [L.load_none, ← keys_eq_index]
      exact hnot c (by simp)
    obtain ⟨k1, l1, hs, L1, hc1, hle1, hk1⟩ :=
      Set_new_keys L hpos hle c.value hexp hl
    rw [List.map_cons, List.nodup_cons] at hnd
    have hnot1 : ∀ c' ∈ cs, c'.key ∉ l1.map (fun p => (k1.heap p).Key) := by
      intro c' hc' hmem
      rw [hk1] at hmem
      rcases List.mem_cons.1 (List.mem_of_mem_take hmem) with h | h
      · exact hnd.1 (by rw [← h]; exact List.mem_map.2 ⟨c', hc', rfl⟩)
      · exact hnot c' (by simp [hc']) h
    obtain ⟨k2, l2, hs2, L2, hc2, hle2, hk2⟩ :=
      SetAll_distinct cs k1 l1 L1 (by rw [hc1]; exact hpos) hle1
        (fun c' hc' => httl c' (by simp [hc'])) hnd.2 hnot1
    refine ⟨k2, l2, by simp only [SetAll, hs, hs2], L2, hc2.trans hc1, hle2, ?_⟩
    rw [hk2, hk1, hc1, take_append_take]
    simp

theorem lastValue_isSome {calls : List SetCall} {key : String}
    (h : key ∈ calls.map SetCall.key) : ∃ v, lastValue calls key = some v := by
  induction calls with
  | nil => simp at h
  | cons c cs ih =>
    simp only [lastValue]
    cases hv : lastValue cs key with
    | some v => exact ⟨v, rfl⟩
    | none =>
      rw [List.map_cons, List.mem_cons] at h
      rcases h with h1 | h1
      · exact ⟨c.value, by simp [h1]⟩
      · obtain ⟨v, hv'⟩ := ih h1
        rw [hv] at hv'
        exact absurd hv' (by simp)

theorem Linked.len_le_of_card {k : Cache} {l : List Nat} (L : Linked k l) {A : List String}
    (hsub : ∀ x ∈ l.map (fun p => (k.heap p).Key), x ∈ A)
    (hcard : ((A.toFinset.card : Nat) : Int) ≤ k.Capacity) : k.Queue.Len ≤ k.Capacity := by
  have hnd : (l.map (fun p => (k.heap p).Key)).Nodup := by
    rw [keys_eq_index]; exact L.keys
  have h1 : (l.map (fun p => (k.heap p).Key)).toFinset ⊆ A.toFinset := by
    intro x hx
    rw [List.mem_toFinset] at hx ⊢
    exact hsub x hx
  have h2 := Finset.card_le_card h1
  rw [List.toFinset_card_of_nodup hnd, List.length_map] at h2
  rw [L.queue.len]
  omega

/-- One `Set` without TTL while the distinct keys fit the capacity: the key
is indexed with the new value, every other indexed key keeps its node and
value, and nothing is evicted. -/
theorem Set_noTTL_step {k : Cache} {l : List Nat} (L : Linked k l) (hpos : 1 ≤ k.Capacity)
    (hnt : ∀ p ∈ l, (k.heap p).TTL = none) (now : Int) (key : String) (value : GoAny)
    (hcard : (((key :: l.map (fun p => (k.heap p).Key)).toFinset.card : Nat) : Int)
      ≤ k.Capacity) :
    ∃ k1 l1, Set k now key value none = some k1 ∧ Linked k1 l1 ∧ k1.Capacity = k.Capacity ∧
      (∀ p ∈ l1, (k1.heap p).TTL = none) ∧
      (∀ key', key' ∈ l1.map (fun p => (k1.heap p).Key) ↔
        (key' = key ∨ key' ∈ l.map (fun p => (k.heap p).Key))) ∧
      (∃ n, Load k1.SMap key = some n ∧ (k1.heap n).Value = value) ∧
      (∀ key', key' ≠ key → ∀ n, Load k.SMap key' = some n →
        Load k1.SMap key' = some n ∧ (k1.heap n).Value = (k.heap n).Value) := by
  have hle : k.Queue.Len ≤ k.Capacity :=
    L.len_le_of_card (fun x hx => List.mem_cons_of_mem _ hx) hcard
  have w : WellFormed k := ⟨l, L, hpos, hle⟩
  obtain ⟨k0, n0, hs0, _, hl0, hv0, _⟩ := w.set_lookup now key value (rfl : expiresAt now none = some none)
  cases hl : Load k.SMap key with
  | some n =>
    obtain ⟨hn, hk⟩ := L.mem_of_load hl
    obtain ⟨k1, hs, L1, hc, _, _, _, _, hp⟩ :=
      Set_existing L hle value (rfl : expiresAt now none = some none) hl
    rw [hs] at hs0
    have hk01 : k1 = k0 := Option.some.inj hs0
    subst hk01
    have hkey : ∀ p, (k1.heap p).Key = (k.heap p).Key := by
      intro p
      have := congrArg Prod.fst (hp p)
      by_cases hpn' : p = n
      · rw [if_pos hpn'] at this
        rw [hpn', hk]; rw [hpn'] at this; exact this
      · rw [if_neg hpn'] at this
        exact this
    refine ⟨k1, _, hs, L1, hc, ?_, ?_, ⟨n0, hl0, hv0⟩, ?_⟩
    · intro p hpm
      have := congrArg (fun t => t.2.2) (hp p)
      by_cases hpn' : p = n
      · rw [if_pos hpn'] at this; exact this
      · rw [if_neg hpn'] at this
        have hpl : p ∈ l := (mem_cons_erase hn p).1 hpm
        exact this.trans (hnt p hpl)
    · intro key'
      simp only [List.mem_map, hkey]
      constructor
      · rintro ⟨p, hpm, rfl⟩
        exact Or.inr ⟨p, (mem_cons_erase hn p).1 hpm, rfl⟩
      · rintro (h | ⟨p, hpm, rfl⟩)
        · exact ⟨n, by simp, by rw [hk, h]⟩
        · exact ⟨p, (mem_cons_erase hn p).2 hpm, rfl⟩
    · intro key' hne n' hl'
      have hload := L.load_congr L1 (mem_cons_erase hn) hkey key'
      refine ⟨by rw [hload]; exact hl', ?_⟩
      have hnn : n' ≠ n := by
        rintro rfl
        exact hne ((L.mem_of_load hl').2.symm.trans hk)
      have := congrArg (fun t => t.2.1) (hp n')
      rw [if_neg hnn] at this
      exact this
  | none =>
    obtain ⟨k1, hs, L1, hc, _, _, _, hp⟩ :=
      Set_new L hpos value (rfl : expiresAt now none = some none) hl
    rw [hs] at hs0
    have hk01 : k1 = k0 := Option.some.inj hs0
    subst hk01
    have hknot : key ∉ l.map (fun p => (k.heap p).Key) := by
      rw [keys_eq_index]; exact L.load_none.1 hl
    have hnd : (key :: l.map (fun p => (k.heap p).Key)).Nodup := by
      rw [List.nodup_cons, keys_eq_index]
      exact ⟨by rw [← keys_eq_index]; exact hknot, L.keys⟩
    rw [List.toFinset_card_of_nodup hnd] at hcard
    simp only [List.length_cons, List.length_map] at hcard
    have hfit : fit k.Capacity (k.fresh :: l) = k.fresh :: l := by
      unfold fit
      rw [if_neg]
      simp only [List.length_cons]
      omega
    rw [hfit] at L1
    have hold : ∀ p ∈ l, payload (k1.heap p) = payload (k.heap p) := by
      intro p hpl
      have := hp p
      rw [if_neg (Nat.ne_of_lt (L.queue.alloc p (by simp [hpl])))] at this
      exact this
    have hnew : payload (k1.heap k.fresh) = (key, value, none) := by
      have := hp k.fresh
      rw [if_pos rfl] at this
      exact this
    refine ⟨k1, _, hs, L1, hc, ?_, ?_, ⟨n0, hl0, hv0⟩, ?_⟩
    · intro p hpm
      rcases List.mem_cons.1 hpm with h | h
      · rw [h]; exact congrArg (fun t => t.2.2) hnew
      · exact (congrArg (fun t => t.2.2) (hold p h)).trans (hnt p h)
    · intro key'
      have h1 : (k1.heap k.fresh).Key = key := congrArg Prod.fst hnew
      have h2 : l.map (fun p => (k1.heap p).Key) = l.map (fun p => (k.heap p).Key) :=
        List.map_congr_left (fun p hpl => congrArg Prod.fst (hold p hpl))
      rw [List.map_cons, List.mem_cons, h1, h2]
    · intro key' _ n' hl'
      obtain ⟨hn', hk'⟩ := L.mem_of_load hl'
      have hkk : (k1.heap n').Key = key' := (congrArg Prod.fst (hold n' hn')).trans hk'
      refine ⟨?_, congrArg (fun t => t.2.1) (hold n' hn')⟩
      rw [← hkk]
      exact L1.load_of_mem (List.mem_cons_of_mem _ hn')

/-- A sequence of `Set` calls without TTL while the distinct keys fit the
capacity: every key of the sequence ends up indexed with the value of its
last call, and the keys the sequence does not set keep node and value. -/
theorem SetAll_noTTL :
    ∀ (calls : List SetCall) (k : Cache) (l : List Nat), Linked k l → 1 ≤ k.Capacity →
      (∀ p ∈ l, (k.heap p).TTL = none) → (∀ c ∈ calls, c.ttl = none) →
      ((((l.map (fun p => (k.heap p).Key) ++ calls.map SetCall.key).toFinset.card : Nat) : Int)
        ≤ k.Capacity) →
      ∃ k' l', SetAll k calls = some k' ∧ Linked k' l' ∧ k'.Capacity = k.Capacity ∧
        k'.Queue.Len ≤ k'.Capacity ∧ (∀ p ∈ l', (k'.heap p).TTL = none) ∧
        (∀ key v, lastValue calls key = some v →
          ∃ n, Load k'.SMap key = some n ∧ (k'.heap n).Value = v) ∧
        (∀ key, lastValue calls key = none → ∀ n, Load k.SMap key = some n →
          Load k'.SMap key = some n ∧ (k'.heap n).Value = (k.heap n).Value)
  | [], k, l, L, _, hnt, _, hcard => by
    refine ⟨k, l, rfl, L, rfl, L.len_le_of_card (fun x hx => by simpa using hx) hcard, hnt,
      ?_, ?_⟩
    · intro key v h; simp [lastValue] at h
    · intro key _ n hl; exact ⟨hl, rfl⟩
  | c :: cs, k, l, L, hpos, hnt, httl, hcard => by
    have hc0 : c.ttl = none := httl c (by simp)
    have hcard1 : (((c.key :: l.map (fun p => (k.heap p).Key)).toFinset.card : Nat) : Int)
        ≤ k.Capacity := by
      have hsub : (c.key :: l.map (fun p => (k.heap p).Key)).toFinset ⊆
          (l.map (fun p => (k.heap p).Key) ++ (c :: cs).map SetCall.key).toFinset := by
        intro x hx
        rw [List.mem_toFinset] at hx ⊢
        rcases List.mem_cons.1 hx with h | h
        · rw [h]; simp
        · exact List.mem_append_left _ h
      have := Finset.card_le_card hsub
      omega
    obtain ⟨k1, l1, hs, L1, hc1, hnt1, hkeys1, ⟨n1, hl1, hv1⟩, hother⟩ :=
      Set_noTTL_step L hpos hnt c.now c.key c.value hcard1
    have hcard2 : ((((l1.map (fun p => (k1.heap p).Key) ++ cs.map SetCall.key).toFinset.card
        : Nat) : Int) ≤ k1.Capacity) := by
      have hsub : (l1.map (fun p => (k1.heap p).Key) ++ cs.map SetCall.key).toFinset ⊆
          (l.map (fun p => (k.heap p).Key) ++ (c :: cs).map SetCall.key).toFinset := by
        intro x hx
        rw [List.mem_toFinset] at hx ⊢
        rcases List.mem_append.1 hx with h | h
        · rcases (hkeys1 x).1 h with h' | h'
          · rw [h']; simp
          · exact List.mem_append_left _ h'
        · exact List.mem_append_right _ (by rw [List.map_cons]; exact List.mem_cons_of_mem _ h)
      have := Finset.card_le_card hsub
      rw [hc1]
      omega
    obtain ⟨k2, l2, hs2, L2, hc2, hle2, hnt2, hset2, hkeep2⟩ :=
      SetAll_noTTL cs k1 l1 L1 (by rw [hc1]; exact hpos) hnt1
        (fun c' hc' => httl c' (by simp [hc'])) hcard2
    refine ⟨k2, l2, ?_, L2, hc2.trans hc1, hle2, hnt2, ?_, ?_⟩
    · simp only [SetAll]
      rw [hc0] at *
      simp only [hs, hs2]
    · intro key v hv
      simp only [lastValue] at hv
      cases hcs : lastValue cs key with
      | some v' =>
        rw [hcs] at hv
        have hvv : v' = v := Option.some.inj hv
        subst hvv
        exact hset2 key v' hcs
      | none =>
        rw [hcs] at hv
        by_cases hck : c.key = key
        · rw [if_pos hck] at hv
          cases hv
          obtain ⟨h1, h2⟩ := hkeep2 key hcs n1 (by rw [← hck]; exact hl1)
          exact ⟨n1, h1, h2.trans hv1⟩
        · rw [if_neg hck] at hv
          exact absurd hv (by simp)
    · intro key hnone n hl
      simp only [lastValue] at hnone
      cases hcs : lastValue cs key with
      | some v' => rw [hcs] at hnone; exact absurd hnone (by simp)
      | none =>
        rw [hcs] at hnone
        have hck : c.key ≠ key := by
          intro h
          rw [if_pos h] at hnone
          exact absurd hnone (by simp)
        obtain ⟨h1, h2⟩ := hother key (fun h => hck h.symm) n hl
        obtain ⟨h3, h4⟩ := hkeep2 key hcs n h1
        exact ⟨h3, h4.trans h2⟩

/-! ## Example states -/

theorem Reachable.of_setAll {cap : Int} :
    ∀ (calls : List SetCall) {k k' : Cache}, Reachable cap k → SetAll k calls = some k' →
      Reachable cap k'
  | [], k, k', hr, h => by
    simp only [SetAll, Option.some.injEq] at h
    rw [← h]; exact hr
  | c :: cs, k, k', hr, h => by
    simp only [SetAll] at h
    cases hs : Set k c.now c.key c.value c.ttl with
    | none => rw [hs] at h; exact absurd h (by simp)
    | some k1 =>
      rw [hs] at h
      exact Reachable.of_setAll cs (Reachable.set c.now c.key c.value c.ttl hr hs) h

theorem cacheABC_wellFormed : WellFormed cacheABC :=
  (NewCache_wellFormed (by decide)).setAll_getD (by decide)

theorem cacheABC_reachable : Reachable 3 cacheABC :=
  Reachable.of_setAll abcCalls Reachable.init (by rfl : SetAll (NewCache 3) abcCalls = some cacheABC)

theorem cacheTTL_wellFormed : WellFormed cacheTTL :=
  (NewCache_wellFormed (by decide)).setAll_getD (by decide)

/-! ## Removal, repeated removal, and any capacity -/


/-- The index after one linked node is unlinked and deindexed: its key is
gone, every other key answers as before. -/
theorem Linked.load_erase {k k' : Cache} {l : List Nat} {n : Nat} (L : Linked k l)
    (L' : Linked k' (l.erase n)) (hn : n ∈ l) (hkey : ∀ p, (k'.heap p).Key = (k.heap p).Key) :
    Load k'.SMap (k.heap n).Key = none ∧
      ∀ key', key' ≠ (k.heap n).Key → Load k'.SMap key' = Load k.SMap key' := by
  constructor
  · rw [L'.load_none, index_congr _ (fun x _ => hkey x)]
    exact L.key_not_mem_erase hn
  · intro key' hne
    apply Option.ext
    intro m
    rw [Option.mem_def, Option.mem_def, L.load_iff, L'.load_iff, hkey]
    constructor
    · rintro ⟨h1, h2⟩
      exact ⟨List.mem_of_mem_erase h1, h2⟩
    · rintro ⟨h1, h2⟩
      have hmn : m ≠ n := by
        rintro rfl
        exact hne h2.symm
      exact ⟨(List.mem_erase_of_ne hmn).2 h1, h2⟩

theorem QueueOK.not_mem_erase {k : Cache} {l : List Nat} (q : QueueOK k l) (n : Nat) :
    n ∉ l.erase n := by
  have hnd := q.nodup
  rw [List.cons_append, List.nodup_cons] at hnd
  have hl : l.Nodup := (List.nodup_append.1 hnd.2).1
  intro h
  exact ((List.Nodup.mem_erase_iff hl).1 h).1 rfl

/-- A second `Remove` of the same node right after the first finds the node's
own `Prev` and `Next` as they were, writes the links that are already there,
deletes a key that is already gone, and decrements `Len` once more. -/
theorem Remove_again {k k1 : Cache} {n n' : Nat} (h : Remove k n = some (k1, n')) :
    Remove k1 n =
      some ({ k1 with Queue := { k1.Queue with Len := k1.Queue.Len - 1 } }, n) := by
  unfold Remove at h
  cases hp : (k.heap n).Prev with
  | none => rw [hp] at h; exact absurd h (by simp)
  | some p =>
    cases hx : (k.heap n).Next with
    | none => rw [hp, hx] at h; exact absurd h (by simp)
    | some x =>
      rw [hp, hx] at h
      simp only [Option.some.injEq, Prod.mk.injEq] at h
      obtain ⟨hk1, _⟩ := h
      subst hk1
      have hp1 : (setPrev (setNext k.heap p (some x)) x (some p) n).Prev = some p := by
        rw [setPrev_Prev, setNext_Prev, hp]
        split <;> rfl
      have hx1 : (setPrev (setNext k.heap p (some x)) x (some p) n).Next = some x := by
        rw [setPrev_Next, setNext_Next, hx]
        split <;> rfl
      have hheap : setPrev (setNext (setPrev (setNext k.heap p (some x)) x (some p)) p (some x))
          x (some p) = setPrev (setNext k.heap p (some x)) x (some p) := by
        funext y
        unfold setPrev setNext
        by_cases hyx : y = x
        · subst hyx
          by_cases hyp : y = p
          · subst hyp; simp
          · simp [hyp]
        · by_cases hyp : y = p
          · subst hyp; simp [hyx]
          · simp [hyx, hyp]
      have hdel : ∀ (m : List (String × Nat)) (key : String),
          Delete (Delete m key) key = Delete m key := by
        intro m key
        unfold Delete
        rw [List.filter_filter]
        simp
      simp only [Remove, hp1, hx1, hheap, setPrev_Key, setNext_Key, hdel]

/-- Operation `Set` returns on every consistent cache, whatever the capacity,
unless the variadic `ttl` is an empty non-nil slice. -/
theorem Set_returns {k : Cache} {l : List Nat} (L : Linked k l) (now : Int) (key : String)
    (value : GoAny) {ttl : Option (List Int)} (httl : ttl ≠ some []) :
    ∃ k', Set k now key value ttl = some k' := by
  obtain ⟨exp, hexp⟩ := expiresAt_some now httl
  cases hl : Load k.SMap key with
  | some n =>
    obtain ⟨hn, _⟩ := L.mem_of_load hl
    obtain ⟨k1, hr, L1, f1, _⟩ := Remove_linked L hn
    have hnot1 := L.queue.not_mem_of_mem_erase hn
    let k2 : Cache := { k1 with heap := setTTL (setValue k1.heap n value) n exp }
    have L2 : Linked k2 (l.erase n) := by
      refine L1.congr_heap rfl rfl (le_refl _) (fun x hx => ?_)
      have hxn : x ≠ n := by
        rintro rfl
        rw [f1.head, f1.tail] at hx
        exact hnot1 hx
      show setTTL (setValue k1.heap n value) n exp x = k1.heap x
      simp [setTTL, setValue, hxn]
    have hnot : n ∉ k2.Queue.Head :: l.erase n ++ [k2.Queue.Tail] := by
      show n ∉ k1.Queue.Head :: l.erase n ++ [k1.Queue.Tail]
      rw [f1.head, f1.tail]; exact hnot1
    have hfr : n < k2.fresh := by
      show n < k1.fresh
      rw [f1.fresh]; exact L.queue.alloc n (by simp [hn])
    obtain ⟨k3, ha, _⟩ := Add_queue L2.queue hnot hfr
    refine ⟨k3, ?_⟩
    simp only [Set, hexp, hl, hr]
    simp only [k2] at ha
    simp only [ha, Option.map_some']
  | none =>
    let k1 : Cache :=
      { k with heap := setNode k.heap k.fresh ⟨key, value, none, none, exp⟩
               fresh := k.fresh + 1 }
    have hne : ∀ x ∈ k.Queue.Head :: l ++ [k.Queue.Tail], x ≠ k.fresh := by
      intro x hx
      exact Nat.ne_of_lt (L.queue.alloc x hx)
    have L1 : Linked k1 l := by
      refine L.congr_heap rfl rfl (Nat.le_succ _) (fun x hx => ?_)
      show setNode k.heap k.fresh _ x = k.heap x
      simp [setNode, hne x hx]
    have hnot : k.fresh ∉ k1.Queue.Head :: l ++ [k1.Queue.Tail] := fun h => hne _ h rfl
    obtain ⟨k2, ha, _⟩ := Add_queue L1.queue hnot (Nat.lt_succ_self _)
    refine ⟨k2, ?_⟩
    simp only [Set, hexp, hl]
    simp only [k1] at ha
    simp only [ha, Option.map_some']

theorem walk_congr {k k' : Cache} (hh : k'.heap = k.heap) (ht : k'.Queue.Tail = k.Queue.Tail) :
    ∀ (fuel : Nat) (p : Option Nat), walk k' fuel p = walk k fuel p
  | 0, _ => rfl
  | _ + 1, none => rfl
  | fuel + 1, some p => by
    simp only [walk, hh, ht, walk_congr hh ht fuel]

theorem queueNodes_congr {k k' : Cache} (hh : k'.heap = k.heap) (hq : k'.Queue.Head = k.Queue.Head)
    (ht : k'.Queue.Tail = k.Queue.Tail) (hf : k'.fresh = k.fresh) :
    queueNodes k' = queueNodes k := by
  unfold queueNodes
  rw [walk_congr hh ht, hh, hq, hf]

/-! ## Both directions of the chain -/


theorem Chain.snoc {h : Nat → Node} {b x : Nat} :
    ∀ (l : List Nat) (a : Nat), Chain h a (l ++ [x]) b →
      Chain h a l x ∧ (h x).Next = some b ∧ (h b).Prev = some x
  | [], _, hc => ⟨⟨hc.1, hc.2.1⟩, hc.2.2.1, hc.2.2.2⟩
  | _ :: ys, _, hc =>
    have ih := Chain.snoc ys _ hc.2.2
    ⟨⟨hc.1, hc.2.1, ih.1⟩, ih.2⟩

theorem walkTo_next {h : Nat → Node} {b : Nat} :
    ∀ (l : List Nat) (a fuel : Nat), Chain h a l b → b ∉ l → l.length < fuel →
      walkTo h Node.Next b fuel (h a).Next = some l
  | [], a, fuel, hc, _, hf => by
    obtain ⟨f, rfl⟩ : ∃ f, fuel = f + 1 := ⟨fuel - 1, by simp at hf; omega⟩
    rw [hc.1]
    simp [walkTo]
  | x :: xs, a, fuel, hc, ht, hf => by
    obtain ⟨f, rfl⟩ : ∃ f, fuel = f + 1 := ⟨fuel - 1, by simp at hf; omega⟩
    have hx : x ≠ b := by
      rintro rfl
      exact ht (by simp)
    rw [hc.1]
    simp only [walkTo, hx, if_false]
    rw [walkTo_next xs x f hc.2.2 (fun h => ht (List.mem_cons_of_mem _ h))
      (by simp at hf; omega)]
    rfl

theorem walkTo_prev {h : Nat → Node} {a : Nat} (l : List Nat) :
    ∀ (b fuel : Nat), Chain h a l b → a ∉ l → l.length < fuel →
      walkTo h Node.Prev a fuel (h b).Prev = some l.reverse := by
  induction l using List.reverseRecOn with
  | nil =>
    intro b fuel hc _ hf
    obtain ⟨f, rfl⟩ : ∃ f, fuel = f + 1 := ⟨fuel - 1, by simp at hf; omega⟩
    rw [hc.2]
    simp [walkTo]
  | append_singleton l x ih =>
    intro b fuel hc ha hf
    obtain ⟨f, rfl⟩ : ∃ f, fuel = f + 1 := ⟨fuel - 1, by simp at hf; omega⟩
    obtain ⟨hc1, _, hbx⟩ := Chain.snoc l a hc
    have hx : x ≠ a := by
      rintro rfl
      exact ha (by simp)
    rw [hbx]
    simp only [walkTo, hx, if_false]
    rw [ih x f hc1 (fun h => ha (List.mem_append_left _ h)) (by simp at hf; omega)]
    simp

/-- Every node of a chain is the `Next` of its `Prev` and the `Prev` of its
`Next`. -/
theorem Chain.neighbours {h : Nat → Node} {b : Nat} :
    ∀ (l : List Nat) (a : Nat), Chain h a l b → ∀ n ∈ l,
      ∃ p x, (h n).Prev = some p ∧ (h n).Next = some x ∧
        (h p).Next = some n ∧ (h x).Prev = some n
  | [], _, _, n, hn => by simp at hn
  | c :: l, a, hc, n, hn => by
    rcases List.mem_cons.1 hn with h1 | h1
    · subst h1
      cases l with
      | nil => exact ⟨a, b, hc.2.1, hc.2.2.1, hc.1, hc.2.2.2⟩
      | cons y ys => exact ⟨a, y, hc.2.1, hc.2.2.1, hc.1, hc.2.2.2.1⟩
    · exact Chain.neighbours l c hc.2.2 n h1

/-! ## Repeated sweeps -/


/-- A pass that can still reach every node removes at least one node when the
list holds an expired one. -/
theorem sweepList_length_lt (e : Nat → Bool) :
    ∀ (l : List Nat) (i len : Int), (∃ p ∈ l, e p = true) → i + (l.length : Int) ≤ len →
      (sweepList e l i len).length < l.length
  | [], _, _, h, _ => by
    obtain ⟨p, hp, _⟩ := h
    simp at hp
  | x :: xs, i, len, h, hlen => by
    have hi : i < len := by
      simp only [List.length_cons, Nat.cast_add, Nat.cast_one] at hlen
      omega
    simp only [sweepList, hi, if_true]
    by_cases hx : e x = true
    · simp only [hx, if_true, List.length_cons]
      have := (sweepList_sublist e xs (i + 1) (len - 1)).length_le
      omega
    · obtain ⟨p, hp, hep⟩ := h
      have hpx : p ∈ xs := by
        rcases List.mem_cons.1 hp with h1 | h1
        · rw [h1] at hep; exact absurd hep hx
        · exact h1
      have := sweepList_length_lt e xs (i + 1) len ⟨p, hpx, hep⟩
        (by simp only [List.length_cons, Nat.cast_add, Nat.cast_one] at hlen; omega)
      simp only [hx, Bool.false_eq_true, if_false, List.length_cons]
      omega

theorem sweepPasses_sublist (e : Nat → Bool) :
    ∀ (m : Nat) (l : List Nat), (sweepPasses e m l).Sublist l
  | 0, l => List.Sublist.refl l
  | m + 1, l => (sweepPasses_sublist e m _).trans (sweepList_sublist e l 0 _)

theorem sweepPasses_keeps (e : Nat → Bool) :
    ∀ (m : Nat) (l : List Nat) (p : Nat), p ∈ l → e p = false → p ∈ sweepPasses e m l
  | 0, _, _, hp, _ => hp
  | m + 1, l, p, hp, he =>
    sweepPasses_keeps e m _ p (sweepList_keeps e l 0 _ p hp he) he

/-- While an expired node is left, every pass has made the list shorter. -/
theorem sweepPasses_length (e : Nat → Bool) :
    ∀ (m : Nat) (l : List Nat), (∃ p ∈ sweepPasses e m l, e p = true) →
      (sweepPasses e m l).length + m ≤ l.length
  | 0, _, _ => by simp [sweepPasses]
  | m + 1, l, h => by
    obtain ⟨p, hp, hep⟩ := h
    simp only [sweepPasses] at hp ⊢
    have ih := sweepPasses_length e m _ ⟨p, hp, hep⟩
    have hpl : p ∈ l :=
      (sweepList_sublist e l 0 _).subset ((sweepPasses_sublist e m _).subset hp)
    have := sweepList_length_lt e l 0 (l.length : Int) ⟨p, hpl, hep⟩ (by omega)
    omega

/-- As many passes as there are nodes leave no expired node. -/
theorem sweepPasses_clean (e : Nat → Bool) (l : List Nat) (m : Nat) (hm : l.length ≤ m) :
    ∀ p ∈ sweepPasses e m l, e p = false := by
  intro p hp
  cases hep : e p with
  | false => rfl
  | true =>
    have h1 := sweepPasses_length e m l ⟨p, hp, hep⟩
    have h2 : 0 < (sweepPasses e m l).length := List.length_pos_of_mem hp
    omega

/-- Consecutive calls of `RemoveExpired` on a consistent cache return, and the
queue follows the list view of the passes. -/
theorem RemoveExpiredN_spec (now : Int) :
    ∀ (m : Nat) {k : Cache} {l : List Nat}, Linked k l →
      ∃ k', RemoveExpiredN k now m = some k' ∧
        Linked k' (sweepPasses (fun p => isExpired (k.heap p).TTL now) m l) ∧ Frame k k'
  | 0, k, _, L => ⟨k, rfl, L, Frame.refl k⟩
  | m + 1, k, l, L => by
    obtain ⟨k1, hs, L1, f1⟩ := RemoveExpired_spec L now
    rw [L.queue.len] at L1
    obtain ⟨k2, hs2, L2, f2⟩ := RemoveExpiredN_spec now m L1
    have he : (fun p => isExpired (k1.heap p).TTL now) =
        (fun p => isExpired (k.heap p).TTL now) := funext (fun p => by rw [f1.ttl])
    rw [he] at L2
    exact ⟨k2, by simp only [RemoveExpiredN, hs, hs2], L2, f1.trans f2⟩

theorem exists_removed {l l' : List Nat} (hnd : l.Nodup) (hlt : l'.length < l.length) :
    ∃ p ∈ l, p ∉ l' := by
  by_contra hcon
  have hsub : l ⊆ l' := by
    intro p hp
    by_contra hnp
    exact hcon ⟨p, hp, hnp⟩
  have := (hnd.subperm hsub).length_le
  omega

theorem QueueOK.nodup_nodes {k : Cache} {l : List Nat} (q : QueueOK k l) : l.Nodup := by
  have hnd := q.nodup
  rw [List.cons_append, List.nodup_cons] at hnd
  exact (List.nodup_append.1 hnd.2).1

/-! ## The expiry of a fresh entry -/


theorem fit_cons {cap : Int} (hcap : 1 ≤ cap) (x : Nat) (l : List Nat) :
    ∃ t, fit cap (x :: l) = x :: t := by
  unfold fit
  split
  · cases l with
    | nil => rename_i h; simp at h; omega
    | cons y ys => exact ⟨(y :: ys).dropLast, by simp [List.dropLast]⟩
  · exact ⟨l, rfl⟩

/-- After `Set` on a well-formed cache the node of the key is first in the
queue and holds the key, the value and the expiry of this call. -/
theorem WellFormed.set_front {k : Cache} (w : WellFormed k) (now : Int) (key : String)
    (value : GoAny) {ttl : Option (List Int)} {exp : Option Int}
    (hexp : expiresAt now ttl = some exp) :
    ∃ k' n t, Set k now key value ttl = some k' ∧ WellFormed k' ∧ Linked k' (n :: t) ∧
      (k'.heap n).Key = key ∧ (k'.heap n).Value = value ∧ (k'.heap n).TTL = exp := by
  obtain ⟨k', hs, w', _⟩ := w.set now key value hexp
  obtain ⟨l, L, hpos, hle⟩ := w
  cases hl : Load k.SMap key with
  | some n =>
    obtain ⟨k'', hs', L', _, _, _, _, _, hp⟩ := Set_existing L hle value hexp hl
    rw [hs] at hs'
    have hkk : k'' = k' := (Option.some.inj hs').symm
    subst hkk
    have hpn := hp n
    rw [if_pos rfl] at hpn
    exact ⟨k'', n, _, hs, w', L', congrArg Prod.fst hpn, congrArg (fun t => t.2.1) hpn,
      congrArg (fun t => t.2.2) hpn⟩
  | none =>
    obtain ⟨k'', hs', L', hc, _, _, _, hp⟩ := Set_new L hpos value hexp hl
    rw [hs] at hs'
    have hkk : k'' = k' := (Option.some.inj hs').symm
    subst hkk
    have hpn := hp k.fresh
    rw [if_pos rfl] at hpn
    obtain ⟨t, ht⟩ := fit_cons hpos k.fresh l
    rw [ht] at L'
    exact ⟨k'', k.fresh, t, hs, w', L', congrArg Prod.fst hpn, congrArg (fun t => t.2.1) hpn,
      congrArg (fun t => t.2.2) hpn⟩

/-- A pass over a non-empty queue visits the first node: it stays exactly
when it is not expired. -/
theorem sweepList_head (e : Nat → Bool) (n : Nat) (t : List Nat) (hn : n ∉ t) :
    n ∈ sweepList e (n :: t) 0 ((n :: t).length : Int) ↔ e n = false := by
  have h0 : (0 : Int) < ((n :: t).length : Int) := by
    simp only [List.length_cons, Nat.cast_add, Nat.cast_one]
    omega
  simp only [sweepList, h0, if_true]
  cases he : e n with
  | false => simp
  | true =>
    simp only [if_true]
    constructor
    · intro h
      exact absurd ((sweepList_sublist e t _ _).subset h) hn
    · intro h
      exact absurd h (by simp)

/-! ## The expiry test, the cleanup task -/

theorem isExpired_iff (ttl : Option Int) (now : Int) :
    isExpired ttl now = true ↔ ∃ e, ttl = some e ∧ e < now / 1000000000 := by
  cases ttl with
  | none => simp [isExpired]
  | some e => simp [isExpired]

theorem isExpired_not (ttl : Option Int) (now : Int) :
    (!isExpired ttl now) = ttl.all (fun e => decide (now / 1000000000 ≤ e)) := by
  cases ttl with
  | none => simp [isExpired]
  | some e =>
    simp only [isExpired, Option.all_some]
    by_cases h : now / 1000000000 > e
    · simp [h]
    · simp [h, not_lt.1 h]

/-- As many passes as there are nodes leave exactly the nodes that are not
expired, in their order. -/
theorem sweepPasses_eq_filter (e : Nat → Bool) (l : List Nat) (hnd : l.Nodup) (m : Nat)
    (hm : l.length ≤ m) : sweepPasses e m l = l.filter (fun p => !e p) := by
  have hsub := sweepPasses_sublist e m l
  have hclean := sweepPasses_clean e l m hm
  have hself : (sweepPasses e m l).filter (fun p => !e p) = sweepPasses e m l := by
    apply List.filter_eq_self.2
    intro p hp
    simp [hclean p hp]
  have h1 : (sweepPasses e m l).Sublist (l.filter (fun p => !e p)) := by
    rw [← hself]
    exact hsub.filter _
  have h2 : l.filter (fun p => !e p) ⊆ sweepPasses e m l := by
    intro p hp
    obtain ⟨hpl, hq⟩ := List.mem_filter.1 hp
    exact sweepPasses_keeps e m l p hpl (by simpa using hq)
  exact h1.eq_of_length_le ((hnd.filter _).subperm h2).length_le

theorem NewCacheTask_some (i : Int) {cleanUp : Int} (h : 0 < cleanUp) :
    NewCacheTask i cleanUp = some (NewCache i) := by
  simp only [NewCacheTask, StartCleanupTask, if_neg (not_le.2 h)]

theorem cacheAllTTL_wellFormed : WellFormed cacheAllTTL :=
  (NewCache_wellFormed (by decide)).setAll_getD (by decide)

/-! ## The claims -/

/-- Claim C1. For a cache built by `NewCache N` with `N ≥ 1` and a sequence of
`Set` calls without TTL whose number of distinct keys is at most `N`: the
sequence returns, and afterwards `Get` of any key of the sequence, at any
clock time, returns `(v, true)` with `v` the value of the last call that set
that key. -/
theorem C1_get_returns_last_set (N : Int) (hN : 1 ≤ N) (calls : List SetCall)
    (hnottl : ∀ c ∈ calls, c.ttl = none)
    (hdistinct : (((calls.map SetCall.key).dedup.length : Nat) : Int) ≤ N) :
    ∃ k, SetAll (NewCache N) calls = some k ∧
      ∀ c ∈ calls, ∀ now, ∃ k' v,
        lastValue calls c.key = some v ∧ Get k now c.key = some (k', v, true) := by
  have hcard : (((([] : List Nat).map (fun p => ((NewCache N).heap p).Key) ++
      calls.map SetCall.key).toFinset.card : Nat) : Int) ≤ (NewCache N).Capacity := by
    rw [List.map_nil, List.nil_append, List.card_toFinset]
    exact hdistinct
  obtain ⟨k, l, hs, L, hc, hle, hnt, hset, _⟩ :=
    SetAll_noTTL calls (NewCache N) [] (NewCache_linked N) hN (by simp) hnottl hcard
  refine ⟨k, hs, fun c hc' now => ?_⟩
  obtain ⟨v, hv⟩ := lastValue_isSome (List.mem_map.2 ⟨c, hc', rfl⟩)
  obtain ⟨n, hl, hval⟩ := hset c.key v hv
  have w : WellFormed k := ⟨l, L, by rw [hc]; exact hN, hle⟩
  obtain ⟨k', hg⟩ := w.get_indexed hl now
  rw [hnt n (L.mem_of_load hl).1, hval] at hg
  exact ⟨k', v, hv, by simpa [isExpired] using hg⟩

/-- Witness of C1: capacity 3, the calls of `TestCacheSetAndGet` up to the
overwrite of `key2`. -/
theorem C1_witness :
    (1 : Int) ≤ 3 ∧ (∀ c ∈ overwriteCalls, c.ttl = none) ∧
    (((overwriteCalls.map SetCall.key).dedup.length : Nat) : Int) ≤ 3 ∧
    ∃ k, SetAll (NewCache 3) overwriteCalls = some k ∧
      ∀ c ∈ overwriteCalls, ∀ now, ∃ k' v,
        lastValue overwriteCalls c.key = some v ∧ Get k now c.key = some (k', v, true) :=
  ⟨by decide, by decide, by decide,
    C1_get_returns_last_set 3 (by decide) overwriteCalls (by decide) (by decide)⟩

/-- Claim C2. For a capacity `N ≥ 1` and `M > N` `Set` calls with pairwise
distinct keys run in order on `NewCache N`: the calls return; the queue,
walked from `Head.Next` to the tail, holds the last `N` keys, newest first;
the indexed keys are exactly those; `Queue.Len = N`; and `Get` of any of the
first `M - N` keys returns not-found. -/
theorem C2_keeps_last_N_newest_first (N : Nat) (hN : 1 ≤ N) (calls : List SetCall)
    (hM : N < calls.length) (hnd : (calls.map SetCall.key).Nodup)
    (httl : ∀ c ∈ calls, c.ttl ≠ some []) :
    ∃ k, SetAll (NewCache N) calls = some k ∧
      queueKeys k = ((calls.map SetCall.key).drop (calls.length - N)).reverse ∧
      (∀ key, (∃ n, Load k.SMap key = some n) ↔
        key ∈ (calls.map SetCall.key).drop (calls.length - N)) ∧
      k.Queue.Len = N ∧
      ∀ key ∈ (calls.map SetCall.key).take (calls.length - N), ∀ now,
        Get k now key = some (k, GoAny.nil, false) := by
  obtain ⟨k, l, hs, L, _, _, hk⟩ :=
    SetAll_distinct calls (NewCache N) [] (NewCache_linked N)
      (by show (1 : Int) ≤ (N : Int); omega) (by show (0 : Int) ≤ (N : Int); omega) httl hnd
      (by simp)
  have hcap : (NewCache N).Capacity.toNat = N := by
    show ((N : Int)).toNat = N
    simp
  rw [hcap, List.map_nil, List.append_nil] at hk
  have hrev : ((calls.map SetCall.key).reverse).take N =
      ((calls.map SetCall.key).drop (calls.length - N)).reverse := by
    rw [List.reverse_drop, List.length_map]
    congr 1
    omega
  rw [hrev] at hk
  have hindexed : ∀ key, (∃ n, Load k.SMap key = some n) ↔
      key ∈ (calls.map SetCall.key).drop (calls.length - N) := by
    intro key
    rw [← List.mem_reverse, ← hk]
    constructor
    · rintro ⟨n, hl⟩
      obtain ⟨hn, hkey⟩ := L.mem_of_load hl
      exact List.mem_map.2 ⟨n, hn, hkey⟩
    · intro hmem
      obtain ⟨n, hn, hkey⟩ := List.mem_map.1 hmem
      exact ⟨n, by rw [← hkey]; exact L.load_of_mem hn⟩
  refine ⟨k, hs, ?_, hindexed, ?_, ?_⟩
  · unfold queueKeys
    rw [L.queue.queueNodes_eq, hk]
  · have := congrArg List.length hk
    simp only [List.length_map, List.length_reverse, List.length_drop] at this
    rw [L.queue.len, this]
    omega
  · intro key hkey now
    apply Get_miss
    cases hl : Load k.SMap key with
    | none => rfl
    | some n =>
      have hmem := (hindexed key).1 ⟨n, hl⟩
      have hsplit := List.take_append_drop (calls.length - N) (calls.map SetCall.key)
      rw [← hsplit] at hnd
      exact absurd hmem (fun h => (List.nodup_append.1 hnd).2.2 hkey h)

/-- Witness of C2: capacity 3 and `Set(a)`, `Set(b)`, `Set(c)`, `Set(d)`: the
order is `d, c, b` and `a` is not found. -/
theorem C2_witness :
    1 ≤ 3 ∧ 3 < abcdCalls.length ∧ (abcdCalls.map SetCall.key).Nodup ∧
    (∀ c ∈ abcdCalls, c.ttl ≠ some []) ∧
    ∃ k, SetAll (NewCache (3 : Nat)) abcdCalls = some k ∧
      queueKeys k = ["d", "c", "b"] ∧
      (∀ key, (∃ n, Load k.SMap key = some n) ↔ key ∈ ["b", "c", "d"]) ∧
      k.Queue.Len = (3 : Nat) ∧
      ∀ key ∈ ["a"], ∀ now, Get k now key = some (k, GoAny.nil, false) :=
  ⟨by decide, by decide, by decide, by decide,
    C2_keeps_last_N_newest_first 3 (by decide) abcdCalls (by decide) (by decide) (by decide)⟩

/-- Claim C3. In every state reachable from `NewCache cap` with `cap ≥ 1` by
`Set`, `Get`, `RemoveExpired` (and `Remove` of an indexed node), with any
keys, TTLs and clock values, every `Set` that completes leaves
`Queue.Len ≤ Capacity`; and `Set` does complete whenever its variadic `ttl`
is nil or holds a duration. -/
theorem C3_len_le_capacity_after_set (cap : Int) (hcap : 1 ≤ cap) (k : Cache)
    (hr : Reachable cap k) (now : Int) (key : String) (value : GoAny)
    (ttl : Option (List Int)) :
    (∀ k', Set k now key value ttl = some k' → k'.Queue.Len ≤ k'.Capacity) ∧
      (ttl ≠ some [] → ∃ k', Set k now key value ttl = some k') := by
  constructor
  · intro k' hs
    obtain ⟨l, _, _, hle⟩ := (Reachable.wellFormed hcap (Reachable.set now key value ttl hr hs)).1
    exact hle
  · intro httl
    obtain ⟨exp, hexp⟩ := expiresAt_some now httl
    obtain ⟨k', hs, _⟩ := (hr.wellFormed hcap).1.set now key value hexp
    exact ⟨k', hs⟩

/-- Witness of C3: capacity 3, the state after `Set(a)`, `Set(b)`, `Set(c)`,
and a fourth `Set(d)` with a TTL. -/
theorem C3_witness :
    (1 : Int) ≤ 3 ∧ Reachable 3 cacheABC ∧
    (∀ k', Set cacheABC 5 "d" (GoAny.int 4) (some [1000000000]) = some k' →
      k'.Queue.Len ≤ k'.Capacity) ∧
    ((some [1000000000] : Option (List Int)) ≠ some [] →
      ∃ k', Set cacheABC 5 "d" (GoAny.int 4) (some [1000000000]) = some k') :=
  ⟨by decide, cacheABC_reachable,
    C3_len_le_capacity_after_set 3 (by decide) cacheABC cacheABC_reachable 5 "d" (GoAny.int 4)
      (some [1000000000])⟩

/-- Claim C4. In every state reachable from `NewCache cap` with `cap ≥ 1` by
`Set`, `Get`, `RemoveExpired` and `Remove` of an indexed node, the index maps
a key to a node exactly when that node is linked in the queue and carries
that key, and the number of indexed keys equals `Queue.Len`. -/
theorem C4_index_queue_bijection (cap : Int) (hcap : 1 ≤ cap) (k : Cache)
    (hr : Reachable cap k) :
    (∀ key n, Load k.SMap key = some n ↔ (n ∈ queueNodes k ∧ (k.heap n).Key = key)) ∧
      lenSyncMap k.SMap = k.Queue.Len := by
  obtain ⟨l, L, _, _⟩ := (hr.wellFormed hcap).1
  exact L.index_iff

/-- Witness of C4: capacity 3, the state after `Set(a)`, `Set(b)`, `Set(c)`. -/
theorem C4_witness :
    (1 : Int) ≤ 3 ∧ Reachable 3 cacheABC ∧
    (∀ key n, Load cacheABC.SMap key = some n ↔
      (n ∈ queueNodes cacheABC ∧ (cacheABC.heap n).Key = key)) ∧
    lenSyncMap cacheABC.SMap = cacheABC.Queue.Len :=
  ⟨by decide, cacheABC_reachable,
    C4_index_queue_bijection 3 (by decide) cacheABC cacheABC_reachable⟩

/-- Claim C5. On a well-formed cache, `Get` of a key that is indexed (at node
`n`) and not expired returns the node's value with `true`, keeps `Queue.Len`
and every index entry, puts `n` at `Head.Next`, and keeps the other nodes in
their order: the queue becomes `n` followed by the old queue without `n`. -/
theorem C5_get_hit_moves_to_front (k : Cache) (w : WellFormed k) (key : String) (n : Nat)
    (now : Int) (hl : Load k.SMap key = some n)
    (hexp : isExpired (k.heap n).TTL now = false) :
    ∃ k', Get k now key = some (k', (k.heap n).Value, true) ∧ WellFormed k' ∧
      k'.Queue.Len = k.Queue.Len ∧ (∀ key', Load k'.SMap key' = Load k.SMap key') ∧
      (k'.heap k'.Queue.Head).Next = some n ∧
      queueNodes k' = n :: (queueNodes k).erase n ∧
      queueKeys k' = key :: (queueKeys k).erase key := by
  obtain ⟨l, L, hpos, hle⟩ := w
  obtain ⟨hn, hk⟩ := L.mem_of_load hl
  obtain ⟨k', hg, L', f, hlen⟩ := Get_hit L hle hl hexp
  refine ⟨k', hg, ⟨_, L', by rw [f.cap]; exact hpos, by rw [f.cap, hlen]; exact hle⟩, hlen,
    L.load_congr L' (mem_cons_erase hn) f.key, ?_, ?_, ?_⟩
  · rw [Chain.next_eq L'.queue.chain]; rfl
  · rw [L'.queue.queueNodes_eq, L.queue.queueNodes_eq]
  · unfold queueKeys
    rw [L'.queue.queueNodes_eq, L.queue.queueNodes_eq, List.map_cons, f.key, hk,
      List.map_congr_left (fun p _ => f.key p), map_key_erase l L.keys hn, hk]

/-- Witness of C5: capacity 3, order `c, b, a`, then `Get(b)`: the order
becomes `b, c, a`. -/
theorem C5_witness :
    WellFormed cacheABC ∧ Load cacheABC.SMap "b" = some 3 ∧
    isExpired (cacheABC.heap 3).TTL 0 = false ∧ queueKeys cacheABC = ["c", "b", "a"] ∧
    ∃ k', Get cacheABC 0 "b" = some (k', GoAny.int 2, true) ∧ WellFormed k' ∧
      k'.Queue.Len = cacheABC.Queue.Len ∧
      (∀ key', Load k'.SMap key' = Load cacheABC.SMap key') ∧
      (k'.heap k'.Queue.Head).Next = some 3 ∧
      queueNodes k' = [3, 4, 2] ∧
      queueKeys k' = ["b", "c", "a"] :=
  ⟨cacheABC_wellFormed, by decide, by decide, by decide,
    C5_get_hit_moves_to_front cacheABC cacheABC_wellFormed "b" 3 0 (by decide) (by decide)⟩

/-- Claim C6. On a well-formed cache where `key` is indexed at node `n`,
`Set(key, v2, ttl2...)` at clock time `t` returns; the node then holds `v2`
and the expiry `expiresAt t ttl2` (none without a TTL, the Unix second of
`t + ttl2[0]` otherwise), it is first in the queue, `Queue.Len`, every index
entry and every other node's key, value and expiry are as before, and a later
`Get(key)` at any time `t'` is decided by the new expiry alone. -/
theorem C6_set_overwrite (k : Cache) (w : WellFormed k) (key : String) (n : Nat)
    (hl : Load k.SMap key = some n) (t : Int) (v2 : GoAny) (ttl2 : Option (List Int))
    (exp : Option Int) (hexp : expiresAt t ttl2 = some exp) :
    ∃ k', Set k t key v2 ttl2 = some k' ∧ WellFormed k' ∧
      (k'.heap n).Value = v2 ∧ (k'.heap n).TTL = exp ∧
      (k'.heap k'.Queue.Head).Next = some n ∧
      queueNodes k' = n :: (queueNodes k).erase n ∧
      k'.Queue.Len = k.Queue.Len ∧ (∀ key', Load k'.SMap key' = Load k.SMap key') ∧
      (∀ x, x ≠ n → payload (k'.heap x) = payload (k.heap x)) ∧
      ∀ t', ∃ k'', Get k' t' key =
        some (k'', if isExpired exp t' then GoAny.nil else v2, !isExpired exp t') := by
  obtain ⟨l, L, hpos, hle⟩ := w
  obtain ⟨hn, hk⟩ := L.mem_of_load hl
  obtain ⟨k', hs, L', hc, _, _, _, hlen, hp⟩ := Set_existing L hle v2 hexp hl
  have hpn := hp n
  rw [if_pos rfl] at hpn
  have hv : (k'.heap n).Value = v2 := congrArg (fun t => t.2.1) hpn
  have ht : (k'.heap n).TTL = exp := congrArg (fun t => t.2.2) hpn
  have hkey : ∀ p, (k'.heap p).Key = (k.heap p).Key := by
    intro p
    have := congrArg Prod.fst (hp p)
    by_cases hpn' : p = n
    · rw [if_pos hpn'] at this
      rw [hpn', hk]; rw [hpn'] at this; exact this
    · rw [if_neg hpn'] at this
      exact this
  have w' : WellFormed k' := ⟨_, L', by rw [hc]; exact hpos, by rw [hc, hlen]; exact hle⟩
  have hload := L.load_congr L' (mem_cons_erase hn) hkey
  refine ⟨k', hs, w', hv, ht, ?_, ?_, hlen, hload, ?_, ?_⟩
  · rw [Chain.next_eq L'.queue.chain]; rfl
  · rw [L'.queue.queueNodes_eq, L.queue.queueNodes_eq]
  · intro x hx
    have := hp x
    rw [if_neg hx] at this
    exact this
  · intro t'
    have hl' : Load k'.SMap key = some n := by rw [hload]; exact hl
    obtain ⟨k'', hg⟩ := w'.get_indexed hl' t'
    rw [hv, ht] at hg
    exact ⟨k'', hg⟩

/-- Witness of C6: capacity 3, order `c, b, a`, then `Set(b, 20, 10s)` at
time 5s: the expiry is the Unix second 15. -/
theorem C6_witness :
    WellFormed cacheABC ∧ Load cacheABC.SMap "b" = some 3 ∧
    expiresAt 5000000000 (some [10000000000]) = some (some 15) ∧
    ∃ k', Set cacheABC 5000000000 "b" (GoAny.int 20) (some [10000000000]) = some k' ∧
      WellFormed k' ∧ (k'.heap 3).Value = GoAny.int 20 ∧ (k'.heap 3).TTL = some 15 ∧
      (k'.heap k'.Queue.Head).Next = some 3 ∧
      queueNodes k' = [3, 4, 2] ∧
      k'.Queue.Len = cacheABC.Queue.Len ∧
      (∀ key', Load k'.SMap key' = Load cacheABC.SMap key') ∧
      (∀ x, x ≠ 3 → payload (k'.heap x) = payload (cacheABC.heap x)) ∧
      ∀ t', ∃ k'', Get k' t' "b" =
        some (k'', if isExpired (some 15) t' then GoAny.nil else GoAny.int 20,
          !isExpired (some 15) t') :=
  ⟨cacheABC_wellFormed, by decide, by decide,
    C6_set_overwrite cacheABC cacheABC_wellFormed "b" 3 (by decide) 5000000000 (GoAny.int 20)
      (some [10000000000]) (some 15) (by decide)⟩

/-- Claim C7 as stated fails. On `NewCache 1`, `Set("k", "v", 2s)` at `t = 0`
and `Get("k")` at `t' = 2.5s`: `t' - t > d`, and the value is still found,
because both instants fall in the Unix second 2. -/
theorem C7_counterexample :
    (2500000000 : Int) - 0 > 2000000000 ∧
    ((Set (NewCache 1) 0 "k" (GoAny.str "v") (some [2000000000])).bind
      (fun k => (Get k 2500000000 "k").map (fun r => r.2))) = some (GoAny.str "v", true) := by
  decide

/-- Claim C7, amended. On a well-formed cache, after `Set(k, v, d)` at time `t`,
a `Get(k)` at time `t'` returns not-found as soon as the Unix second of `t'`
is past the Unix second of `t + d`, which holds whenever `t' - t` is at least
`d` plus one second. -/
theorem C7_get_after_ttl_second (k : Cache) (w : WellFormed k) (key : String) (v : GoAny)
    (d : Int) (ds : List Int) (t t' : Int)
    (h : (t + d) / 1000000000 < t' / 1000000000 ∨ d + 1000000000 ≤ t' - t) :
    ∃ k1 k2, Set k t key v (some (d :: ds)) = some k1 ∧
      Get k1 t' key = some (k2, GoAny.nil, false) := by
  obtain ⟨k1, n, hs, w1, hl, _, httl⟩ := w.set_lookup t key v
    (rfl : expiresAt t (some (d :: ds)) = some (some ((t + d) / 1000000000)))
  obtain ⟨k2, hg⟩ := w1.get_indexed hl t'
  have hexp : isExpired (k1.heap n).TTL t' = true := by
    rw [httl]
    simp only [isExpired, decide_eq_true_eq]
    omega
  rw [hexp] at hg
  exact ⟨k1, k2, hs, by simpa using hg⟩

/-- Witness of amended C7: TTL 2s set at time 0, `Get` at 3s. -/
theorem C7_witness :
    WellFormed cacheABC ∧
    (((0 : Int) + 2000000000) / 1000000000 < 3000000000 / 1000000000 ∨
      (2000000000 : Int) + 1000000000 ≤ 3000000000 - 0) ∧
    ∃ k1 k2, Set cacheABC 0 "k" (GoAny.str "v") (some [2000000000]) = some k1 ∧
      Get k1 3000000000 "k" = some (k2, GoAny.nil, false) :=
  ⟨cacheABC_wellFormed, by decide,
    C7_get_after_ttl_second cacheABC cacheABC_wellFormed "k" (GoAny.str "v") 2000000000 []
      0 3000000000 (by decide)⟩

/-- Claim C8. On a well-formed cache (positive capacity), after `Set(k, v, d)`
at time `t`, a `Get(k)` at a time `t'` with `t' - t < d` returns `(v, true)`.
The bounds `d > 0` and `t ≤ t'` of the claim are not needed for it. -/
theorem C8_get_before_ttl (k : Cache) (w : WellFormed k) (key : String) (v : GoAny)
    (d : Int) (ds : List Int) (t t' : Int) (h : t' - t < d) :
    ∃ k1 k2, Set k t key v (some (d :: ds)) = some k1 ∧
      Get k1 t' key = some (k2, v, true) := by
  obtain ⟨k1, n, hs, w1, hl, hv, httl⟩ := w.set_lookup t key v
    (rfl : expiresAt t (some (d :: ds)) = some (some ((t + d) / 1000000000)))
  obtain ⟨k2, hg⟩ := w1.get_indexed hl t'
  have hexp : isExpired (k1.heap n).TTL t' = false := by
    rw [httl]
    simp only [isExpired, decide_eq_false_iff_not]
    omega
  rw [hexp, hv] at hg
  exact ⟨k1, k2, hs, by simpa using hg⟩

/-- Witness of C8: TTL 2s set at time 0, `Get` at 1s. -/
theorem C8_witness :
    WellFormed cacheABC ∧ (1000000000 : Int) - 0 < 2000000000 ∧
    ∃ k1 k2, Set cacheABC 0 "k" (GoAny.str "v") (some [2000000000]) = some k1 ∧
      Get k1 1000000000 "k" = some (k2, GoAny.str "v", true) :=
  ⟨cacheABC_wellFormed, by decide,
    C8_get_before_ttl cacheABC cacheABC_wellFormed "k" (GoAny.str "v") 2000000000 []
      0 1000000000 (by decide)⟩

/-- Claim C9, on the code. The calls of `TestCacheRemoveExpired` with no
cleanup tick before the sweep: capacity 5,
`key1` (TTL 1s), `key2` (TTL 2s), `key3` (TTL 12s), `key4` (no TTL) set at
time 0, then one `RemoveExpired` at 7s. The pass stops after removing `key2`,
because its bound `Queue.Len` has dropped to 3: `key1`, expired, is still
linked and still indexed. -/
theorem C9_removeExpired_leaves_expired :
    ((SetAll (NewCache 5) ttlCalls).bind
      (fun k => (RemoveExpired k 7000000000).map (fun k' =>
        (queueKeys k, queueKeys k', k'.Queue.Len,
         (queueNodes k').map (fun p => isExpired (k'.heap p).TTL 7000000000),
         (Load k'.SMap "key1").isSome)))) =
    some (["key4", "key3", "key2", "key1"], ["key4", "key3", "key1"], 3,
      [false, false, true], true) := by
  decide

/-- Claim C10. On a well-formed cache `RemoveExpired` at clock time `now`
returns; the queue afterwards is a sublist of the queue before (the order of
the survivors is kept); every node without an expiry, or whose expiry is not
past, is still linked and still indexed under its key; no node's key, value
or expiry changes; and `Queue.Len` drops by exactly the number of nodes
unlinked. -/
theorem C10_removeExpired_keeps_unexpired (k : Cache) (w : WellFormed k) (now : Int) :
    ∃ k', RemoveExpired k now = some k' ∧ WellFormed k' ∧
      (queueNodes k').Sublist (queueNodes k) ∧
      (∀ p ∈ queueNodes k, isExpired (k.heap p).TTL now = false →
        p ∈ queueNodes k' ∧ Load k'.SMap (k.heap p).Key = some p) ∧
      (∀ p, payload (k'.heap p) = payload (k.heap p)) ∧
      k.Queue.Len - k'.Queue.Len =
        ((queueNodes k).length : Int) - ((queueNodes k').length : Int) := by
  obtain ⟨l, L, hpos, hle⟩ := w
  obtain ⟨k', hs, L', f⟩ := RemoveExpired_spec L now
  have hsub := sweepList_sublist (fun p => isExpired (k.heap p).TTL now) l 0 k.Queue.Len
  refine ⟨k', hs, ⟨_, L', by rw [f.cap]; exact hpos, ?_⟩, ?_, ?_, f.payload, ?_⟩
  · rw [L'.queue.len, f.cap]
    have h1 := hsub.length_le
    have h2 := L.queue.len
    omega
  · rw [L'.queue.queueNodes_eq, L.queue.queueNodes_eq]
    exact hsub
  · intro p hp hexp
    rw [L.queue.queueNodes_eq] at hp
    rw [L'.queue.queueNodes_eq]
    have hmem := sweepList_keeps (fun p => isExpired (k.heap p).TTL now) l 0 k.Queue.Len p hp hexp
    refine ⟨hmem, ?_⟩
    rw [← f.key]
    exact L'.load_of_mem hmem
  · rw [L'.queue.queueNodes_eq, L.queue.queueNodes_eq, L'.queue.len, L.queue.len]

/-- Witness of C10: the cache of `TestCacheRemoveExpired`, swept at 7s. -/
theorem C10_witness :
    WellFormed cacheTTL ∧
    ∃ k', RemoveExpired cacheTTL 7000000000 = some k' ∧ WellFormed k' ∧
      (queueNodes k').Sublist [5, 4, 3, 2] ∧
      (∀ p ∈ [5, 4, 3, 2], isExpired (cacheTTL.heap p).TTL 7000000000 = false →
        p ∈ queueNodes k' ∧ Load k'.SMap (cacheTTL.heap p).Key = some p) ∧
      (∀ p, payload (k'.heap p) = payload (cacheTTL.heap p)) ∧
      cacheTTL.Queue.Len - k'.Queue.Len =
        (([5, 4, 3, 2] : List Nat).length : Int) - ((queueNodes k').length : Int) :=
  ⟨cacheTTL_wellFormed, C10_removeExpired_keeps_unexpired cacheTTL cacheTTL_wellFormed 7000000000⟩

/-- Claim C11. On a well-formed cache (positive capacity), after `Set(k, v)`
without TTL at time `t`, a `Get(k)` at any time `t'` returns `(v, true)`; the
bound `t ≤ t'` of the claim is not needed for it. -/
theorem C11_get_without_ttl (k : Cache) (w : WellFormed k) (key : String) (v : GoAny)
    (t t' : Int) :
    ∃ k1 k2, Set k t key v none = some k1 ∧ Get k1 t' key = some (k2, v, true) := by
  obtain ⟨k1, n, hs, w1, hl, hv, httl⟩ :=
    w.set_lookup t key v (rfl : expiresAt t none = some none)
  obtain ⟨k2, hg⟩ := w1.get_indexed hl t'
  rw [httl, hv] at hg
  exact ⟨k1, k2, hs, by simpa [isExpired] using hg⟩

/-- Witness of C11: `Set(k, v)` without TTL at time 0, `Get` a year later. -/
theorem C11_witness :
    WellFormed cacheABC ∧
    ∃ k1 k2, Set cacheABC 0 "k" (GoAny.str "v") none = some k1 ∧
      Get k1 31536000000000000 "k" = some (k2, GoAny.str "v", true) :=
  ⟨cacheABC_wellFormed,
    C11_get_without_ttl cacheABC cacheABC_wellFormed "k" (GoAny.str "v") 0 31536000000000000⟩

/-- Claim C12 as stated fails. Capacity 3, order `c, b, a`; `Remove` of the
node of `b` leaves `c, a` with `Len = 2` and `b` neither linked nor indexed; a
second `Remove` of the same node keeps order and index but leaves `Len = 1`. -/
theorem C12_counterexample :
    ((Remove cacheABC 3).map (fun r => (queueKeys r.1, Load r.1.SMap "b", r.1.Queue.Len))) =
      some (["c", "a"], none, 2) ∧
    ((Remove cacheABC 3).bind (fun r => (Remove r.1 3).map (fun r2 =>
      (queueKeys r2.1, r2.1.SMap == r.1.SMap, r2.1.Queue.Len)))) =
      some (["c", "a"], true, 1) := by
  decide

/-- Claim C12, amended. On a well-formed cache, `Remove` of a linked node `n`
returns and leaves the key of `n` not indexed and `n` not linked; a second
`Remove` of `n` right after returns too and leaves every node, the queue
order and the index as they are, but decrements `Queue.Len` once more. -/
theorem C12_remove_again_decrements_len (k : Cache) (w : WellFormed k) (n : Nat)
    (hn : n ∈ queueNodes k) :
    ∃ k1 k2, Remove k n = some (k1, n) ∧
      Load k1.SMap (k.heap n).Key = none ∧ n ∉ queueNodes k1 ∧
      Remove k1 n = some (k2, n) ∧
      k2.heap = k1.heap ∧ k2.SMap = k1.SMap ∧ queueNodes k2 = queueNodes k1 ∧
      k2.Capacity = k1.Capacity ∧ k2.Queue.Len = k1.Queue.Len - 1 := by
  obtain ⟨l, L, _, _⟩ := w
  rw [L.queue.queueNodes_eq] at hn
  obtain ⟨k1, hr, L1, f, _⟩ := Remove_linked L hn
  refine ⟨k1, _, hr, (L.load_erase L1 hn f.key).1, ?_, Remove_again hr, rfl, rfl,
    queueNodes_congr rfl rfl rfl rfl, rfl, rfl⟩
  rw [L1.queue.queueNodes_eq]
  exact L.queue.not_mem_erase n

/-- Witness of amended C12: capacity 3, order `c, b, a`, the node of `b`. -/
theorem C12_witness :
    WellFormed cacheABC ∧ 3 ∈ queueNodes cacheABC ∧
    ∃ k1 k2, Remove cacheABC 3 = some (k1, 3) ∧
      Load k1.SMap "b" = none ∧ 3 ∉ queueNodes k1 ∧
      Remove k1 3 = some (k2, 3) ∧
      k2.heap = k1.heap ∧ k2.SMap = k1.SMap ∧ queueNodes k2 = queueNodes k1 ∧
      k2.Capacity = k1.Capacity ∧ k2.Queue.Len = k1.Queue.Len - 1 :=
  ⟨cacheABC_wellFormed, by decide,
    C12_remove_again_decrements_len cacheABC cacheABC_wellFormed 3 (by decide)⟩

/-- Claim C13 as stated fails. `NewCache(0, 5s)` returns a cache; `Set("a", 1)`
on it returns, and the following `Get("a")` returns `(1, true)`. -/
theorem C13_counterexample :
    ((NewCacheTask 0 5000000000).map (fun k => k.Capacity)) = some 0 ∧
    ((NewCacheTask 0 5000000000).bind (fun k0 => (Set k0 0 "a" (GoAny.int 1) none).bind
      (fun k => (Get k 0 "a").map (fun r => r.2)))) = some (GoAny.int 1, true) := by
  decide

/-- Claim C13, amended. With a positive cleanup interval, `NewCache` checks
nothing about `i`: for every `i`, also `i ≤ 0`, it returns a cache with
`Capacity = i`, an empty queue (`Len = 0`, no node between the sentinels) and
an empty index, and a `Set` on it returns whenever its variadic `ttl` is nil
or holds a duration. With an interval `≤ 0` the ticker of the cleanup task
panics, whatever `i` is. -/
theorem C13_newCache_accepts_any_capacity (i cleanUp : Int) (hint : 0 < cleanUp)
    (now : Int) (key : String) (value : GoAny) (ttl : Option (List Int))
    (httl : ttl ≠ some []) :
    (∃ k, NewCacheTask i cleanUp = some k ∧ k.Capacity = i ∧ k.Queue.Len = 0 ∧
      k.SMap = [] ∧ queueNodes k = [] ∧ ∃ k', Set k now key value ttl = some k') ∧
    ∀ c : Int, c ≤ 0 → NewCacheTask i c = none :=
  ⟨⟨NewCache i, NewCacheTask_some i hint, rfl, rfl, rfl,
    (NewCache_linked i).queue.queueNodes_eq,
    Set_returns (NewCache_linked i) now key value httl⟩,
   fun c hc => by simp only [NewCacheTask, StartCleanupTask, if_pos hc]⟩

/-- Witness of amended C13: capacity 0, interval 5s, `Set("a", 1)` without TTL. -/
theorem C13_witness :
    (0 : Int) < 5000000000 ∧ (none : Option (List Int)) ≠ some [] ∧
    (∃ k, NewCacheTask 0 5000000000 = some k ∧ k.Capacity = 0 ∧ k.Queue.Len = 0 ∧
      k.SMap = [] ∧ queueNodes k = [] ∧
      ∃ k', Set k 0 "a" (GoAny.int 1) none = some k') ∧
    ∀ c : Int, c ≤ 0 → NewCacheTask 0 c = none :=
  ⟨by decide, by decide,
    C13_newCache_accepts_any_capacity 0 5000000000 (by decide) 0 "a" (GoAny.int 1) none
      (by decide)⟩

/-- Claim C14. On a well-formed cache, `Remove` of a node `n` linked in the
queue returns `n`; afterwards `Queue.Len` is one less, the key of `n` is not
indexed, every other key is indexed as before, the queue is the old queue
without `n` (the others in their order), no node's key, value or expiry has
changed, and `Get` of the key of `n` returns not-found. -/
theorem C14_remove_linked_node (k : Cache) (w : WellFormed k) (n : Nat)
    (hn : n ∈ queueNodes k) :
    ∃ k', Remove k n = some (k', n) ∧ WellFormed k' ∧
      k'.Queue.Len = k.Queue.Len - 1 ∧
      Load k'.SMap (k.heap n).Key = none ∧
      (∀ key', key' ≠ (k.heap n).Key → Load k'.SMap key' = Load k.SMap key') ∧
      queueNodes k' = (queueNodes k).erase n ∧
      (∀ p, payload (k'.heap p) = payload (k.heap p)) ∧
      ∀ now, Get k' now (k.heap n).Key = some (k', GoAny.nil, false) := by
  obtain ⟨l, L, hpos, hle⟩ := w
  rw [L.queue.queueNodes_eq] at hn ⊢
  obtain ⟨k', hr, L', f, hlen⟩ := Remove_linked L hn
  obtain ⟨hnone, hother⟩ := L.load_erase L' hn f.key
  refine ⟨k', hr, ⟨_, L', by rw [f.cap]; exact hpos, by rw [f.cap, hlen]; omega⟩, hlen, hnone,
    hother, L'.queue.queueNodes_eq, f.payload, fun now => Get_miss hnone⟩

/-- Witness of C14: capacity 3, order `c, b, a`, `Remove` of the node of `b`. -/
theorem C14_witness :
    WellFormed cacheABC ∧ 3 ∈ queueNodes cacheABC ∧
    ∃ k', Remove cacheABC 3 = some (k', 3) ∧ WellFormed k' ∧
      k'.Queue.Len = cacheABC.Queue.Len - 1 ∧
      Load k'.SMap "b" = none ∧
      (∀ key', key' ≠ "b" → Load k'.SMap key' = Load cacheABC.SMap key') ∧
      queueNodes k' = [4, 2] ∧
      (∀ p, payload (k'.heap p) = payload (cacheABC.heap p)) ∧
      ∀ now, Get k' now "b" = some (k', GoAny.nil, false) :=
  ⟨cacheABC_wellFormed, by decide,
    C14_remove_linked_node cacheABC cacheABC_wellFormed 3 (by decide)⟩

/-- Claim C15, on the code. The schedule of `TestConcurrentGetAndRemove` in
which no two calls overlap: after the prefill `key0` to `key9` (capacity
1000), the first goroutine loads `key5`, the second goroutine loads `key5`,
the first removes the node, the second removes the same node. Afterwards the
index holds 9 keys and `Queue.Len` is 8. -/
theorem C15_load_load_remove_remove :
    (lenSyncMap cachePrefilled.SMap, cachePrefilled.Queue.Len) = (10, 10) ∧
    ((Load cachePrefilled.SMap "key5").bind (fun n1 =>
      (Load cachePrefilled.SMap "key5").bind (fun n2 =>
        (Remove cachePrefilled n1).bind (fun r1 =>
          (Remove r1.1 n2).map (fun r2 =>
            (lenSyncMap r2.1.SMap, r2.1.Queue.Len, r2.1.Capacity)))))) =
      some (9, 8, 1000) := by
  decide

/-- Claim C16 as stated fails. In the cache of `TestCacheRemoveExpired`, `key2`
expires at the instant 2s; at 2.5s that instant is past, and `Get("key2")`
still returns `("value2", true)` and leaves the entry linked and indexed,
because 2.5s lies in the Unix second 2. -/
theorem C16_counterexample :
    (cacheTTL.heap 3).TTL = some 2 ∧ (2 : Int) * 1000000000 < 2500000000 ∧
    ((Get cacheTTL 2500000000 "key2").map
      (fun r => (r.2, r.1.Queue.Len, Load r.1.SMap "key2"))) =
      some ((GoAny.str "value2", true), 4, some 3) := by
  decide

/-- Claim C16, amended. On a well-formed cache, `Get` at clock time `now` of a
key indexed at a node `n` whose expiry second `e` is less than the Unix second
of `now` returns `(nil, false)`; afterwards the key is not indexed, `n` is not
linked, `Queue.Len` is one less, the queue is the old queue without `n`, every
other key is indexed as before and no node's key, value or expiry has
changed. -/
theorem C16_get_expired_removes (k : Cache) (w : WellFormed k) (key : String) (n : Nat)
    (e now : Int) (hl : Load k.SMap key = some n) (httl : (k.heap n).TTL = some e)
    (hexp : e < now / 1000000000) :
    ∃ k', Get k now key = some (k', GoAny.nil, false) ∧ WellFormed k' ∧
      k'.Queue.Len = k.Queue.Len - 1 ∧
      Load k'.SMap key = none ∧ n ∉ queueNodes k' ∧
      queueNodes k' = (queueNodes k).erase n ∧
      (∀ key', key' ≠ key → Load k'.SMap key' = Load k.SMap key') ∧
      ∀ p, payload (k'.heap p) = payload (k.heap p) := by
  have hexp' : isExpired (k.heap n).TTL now = true :=
    (isExpired_iff _ now).2 ⟨e, httl, hexp⟩
  obtain ⟨l, L, hpos, hle⟩ := w
  obtain ⟨hn, hk⟩ := L.mem_of_load hl
  obtain ⟨k', hg, L', f, hlen⟩ := Get_expired L hl hexp'
  obtain ⟨hnone, hother⟩ := L.load_erase L' hn f.key
  rw [hk] at hnone hother
  rw [L.queue.queueNodes_eq]
  refine ⟨k', hg, ⟨_, L', by rw [f.cap]; exact hpos, by rw [f.cap, hlen]; omega⟩, hlen, hnone,
    ?_, L'.queue.queueNodes_eq, hother, f.payload⟩
  rw [L'.queue.queueNodes_eq]
  exact L.queue.not_mem_erase n

/-- Witness of amended C16: the cache of `TestCacheRemoveExpired`,
`Get("key1")` at 7s; the expiry second of `key1` is 1. -/
theorem C16_witness :
    WellFormed cacheTTL ∧ Load cacheTTL.SMap "key1" = some 2 ∧
    (cacheTTL.heap 2).TTL = some 1 ∧ (1 : Int) < 7000000000 / 1000000000 ∧
    ∃ k', Get cacheTTL 7000000000 "key1" = some (k', GoAny.nil, false) ∧ WellFormed k' ∧
      k'.Queue.Len = cacheTTL.Queue.Len - 1 ∧
      Load k'.SMap "key1" = none ∧ 2 ∉ queueNodes k' ∧
      queueNodes k' = [5, 4, 3] ∧
      (∀ key', key' ≠ "key1" → Load k'.SMap key' = Load cacheTTL.SMap key') ∧
      ∀ p, payload (k'.heap p) = payload (cacheTTL.heap p) :=
  ⟨cacheTTL_wellFormed, by decide, by decide, by decide,
    C16_get_expired_removes cacheTTL cacheTTL_wellFormed "key1" 2 1 7000000000 (by decide)
      (by decide) (by decide)⟩

/-- Claim C17. In every state reachable from `NewCache cap` with `cap ≥ 1` by
`Set`, `Get`, `RemoveExpired` and `Remove` of an indexed node: following
`Next` from `Head.Next` reaches `Tail` after exactly `Queue.Len` nodes, none
of them a sentinel and no node twice; following `Prev` from `Tail.Prev`
reaches `Head` after the same nodes in reverse order; and every linked node
is the `Next` of its `Prev` and the `Prev` of its `Next`. -/
theorem C17_queue_is_doubly_linked_chain (cap : Int) (hcap : 1 ≤ cap) (k : Cache)
    (hr : Reachable cap k) :
    walkTo k.heap Node.Next k.Queue.Tail k.fresh (k.heap k.Queue.Head).Next =
        some (queueNodes k) ∧
      ((queueNodes k).length : Int) = k.Queue.Len ∧
      (k.Queue.Head :: queueNodes k ++ [k.Queue.Tail]).Nodup ∧
      walkTo k.heap Node.Prev k.Queue.Head k.fresh (k.heap k.Queue.Tail).Prev =
        some (queueNodes k).reverse ∧
      ∀ n ∈ queueNodes k, ∃ p x, (k.heap n).Prev = some p ∧ (k.heap n).Next = some x ∧
        (k.heap p).Next = some n ∧ (k.heap x).Prev = some n := by
  obtain ⟨l, L, _, _⟩ := (hr.wellFormed hcap).1
  rw [L.queue.queueNodes_eq]
  have hlen := length_le_of_nodup_lt L.queue.nodup L.queue.alloc
  have hnd := L.queue.nodup
  rw [List.cons_append, List.nodup_cons] at hnd
  have hfuel : l.length < k.fresh := by
    simp at hlen
    omega
  refine ⟨?_, L.queue.len.symm, L.queue.nodup, ?_, Chain.neighbours l _ L.queue.chain⟩
  · apply walkTo_next l _ _ L.queue.chain _ hfuel
    intro h
    exact (List.nodup_append.1 hnd.2).2.2 h (by simp)
  · apply walkTo_prev l _ _ L.queue.chain _ hfuel
    intro h
    exact hnd.1 (List.mem_append_left _ h)

/-- Witness of C17: capacity 3, the state after `Set(a)`, `Set(b)`, `Set(c)`. -/
theorem C17_witness :
    (1 : Int) ≤ 3 ∧ Reachable 3 cacheABC ∧
    walkTo cacheABC.heap Node.Next cacheABC.Queue.Tail cacheABC.fresh
        (cacheABC.heap cacheABC.Queue.Head).Next = some [4, 3, 2] ∧
      (([4, 3, 2] : List Nat).length : Int) = cacheABC.Queue.Len ∧
      (cacheABC.Queue.Head :: [4, 3, 2] ++ [cacheABC.Queue.Tail]).Nodup ∧
      walkTo cacheABC.heap Node.Prev cacheABC.Queue.Head cacheABC.fresh
        (cacheABC.heap cacheABC.Queue.Tail).Prev = some [2, 3, 4] ∧
      ∀ n ∈ [4, 3, 2], ∃ p x, (cacheABC.heap n).Prev = some p ∧
        (cacheABC.heap n).Next = some x ∧
        (cacheABC.heap p).Next = some n ∧ (cacheABC.heap x).Prev = some n :=
  ⟨by decide, cacheABC_reachable,
    C17_queue_is_doubly_linked_chain 3 (by decide) cacheABC cacheABC_reachable⟩

/-- Claim C18 as stated fails. Three entries set at time 0 with TTL 1s, 2s and
3s; at 1.5s the expiration instant of the first (1s) is past, yet one
`RemoveExpired` and three consecutive ones remove nothing, because 1.5s lies
in the Unix second 1. -/
theorem C18_counterexample :
    (cacheAllTTL.heap 2).TTL = some 1 ∧ (1 : Int) * 1000000000 < 1500000000 ∧
    ((RemoveExpired cacheAllTTL 1500000000).map (fun k => (queueNodes k, k.Queue.Len))) =
      some ([4, 3, 2], 3) ∧
    ((RemoveExpiredN cacheAllTTL 1500000000 3).map (fun k => (queueNodes k, k.Queue.Len))) =
      some ([4, 3, 2], 3) := by
  decide

/-- Claim C18, amended. Call an entry expired at `now` when its expiry second
is less than the Unix second of `now`. On a well-formed cache: when the queue
holds an expired entry, one `RemoveExpired` returns, shortens the queue and
unlinks at least one expired entry; and as many consecutive calls as there are
entries return and leave exactly the entries that are not expired, in their
order, with `Queue.Len` their number, so that no expired entry is left and
`QueueLen() = 0` when every entry was expired. -/
theorem C18_repeated_sweeps_remove_all_expired (k : Cache) (w : WellFormed k) (now : Int) :
    ((∃ p ∈ queueNodes k, ∃ e, (k.heap p).TTL = some e ∧ e < now / 1000000000) →
      ∃ k', RemoveExpired k now = some k' ∧ k'.Queue.Len < k.Queue.Len ∧
        ∃ p ∈ queueNodes k, (∃ e, (k.heap p).TTL = some e ∧ e < now / 1000000000) ∧
          p ∉ queueNodes k') ∧
    ∃ k'', RemoveExpiredN k now (queueNodes k).length = some k'' ∧ WellFormed k'' ∧
      queueNodes k'' = (queueNodes k).filter
        (fun p => (k.heap p).TTL.all (fun e => decide (now / 1000000000 ≤ e))) ∧
      QueueLen k'' = ((((queueNodes k).filter
        (fun p => (k.heap p).TTL.all (fun e => decide (now / 1000000000 ≤ e)))).length : Nat)
          : Int) ∧
      (∀ p, payload (k''.heap p) = payload (k.heap p)) ∧
      (∀ p ∈ queueNodes k'', ∀ e, (k''.heap p).TTL = some e → now / 1000000000 ≤ e) ∧
      ((∀ p ∈ queueNodes k, ∃ e, (k.heap p).TTL = some e ∧ e < now / 1000000000) →
        QueueLen k'' = 0) := by
  obtain ⟨l, L, hpos, hle⟩ := w
  rw [L.queue.queueNodes_eq]
  constructor
  · intro hex
    obtain ⟨k', hs, L', f⟩ := RemoveExpired_spec L now
    have hlen := L.queue.len
    rw [hlen] at L'
    have hex' : ∃ p ∈ l, (fun p => isExpired (k.heap p).TTL now) p = true := by
      obtain ⟨p, hp, he⟩ := hex
      exact ⟨p, hp, (isExpired_iff _ now).2 he⟩
    have hlt := sweepList_length_lt (fun p => isExpired (k.heap p).TTL now) l 0
      (l.length : Int) hex' (by omega)
    obtain ⟨p, hp, hnp⟩ := exists_removed L.queue.nodup_nodes hlt
    refine ⟨k', hs, by rw [L'.queue.len, hlen]; omega, p, hp, ?_, ?_⟩
    · apply (isExpired_iff _ now).1
      cases hep : isExpired (k.heap p).TTL now with
      | true => rfl
      | false =>
        exact absurd (sweepList_keeps (fun p => isExpired (k.heap p).TTL now) l 0 _ p hp hep) hnp
    · rw [L'.queue.queueNodes_eq]; exact hnp
  · obtain ⟨k'', hs, L'', f⟩ := RemoveExpiredN_spec now l.length L
    have hfilter : sweepPasses (fun p => isExpired (k.heap p).TTL now) l.length l =
        l.filter (fun p => (k.heap p).TTL.all (fun e => decide (now / 1000000000 ≤ e))) := by
      rw [sweepPasses_eq_filter _ l L.queue.nodup_nodes l.length (le_refl _)]
      apply List.filter_congr
      intro p _
      exact isExpired_not _ now
    rw [hfilter] at L''
    have hsub : (l.filter (fun p => (k.heap p).TTL.all
        (fun e => decide (now / 1000000000 ≤ e)))).Sublist l := List.filter_sublist l
    have hq : ∀ p ∈ l.filter (fun p => (k.heap p).TTL.all
        (fun e => decide (now / 1000000000 ≤ e))),
        ∀ e, (k.heap p).TTL = some e → now / 1000000000 ≤ e := by
      intro p hp e he
      have := (List.mem_filter.1 hp).2
      rw [he] at this
      simpa using this
    refine ⟨k'', hs, ⟨_, L'', by rw [f.cap]; exact hpos, ?_⟩, L''.queue.queueNodes_eq,
      L''.queue.len, f.payload, ?_, ?_⟩
    · rw [L''.queue.len, f.cap]
      have h1 := hsub.length_le
      have h2 := L.queue.len
      omega
    · rw [L''.queue.queueNodes_eq]
      intro p hp e he
      rw [f.ttl] at he
      exact hq p hp e he
    · intro hall
      unfold QueueLen
      rw [L''.queue.len]
      cases hl : l.filter (fun p => (k.heap p).TTL.all
          (fun e => decide (now / 1000000000 ≤ e))) with
      | nil => rfl
      | cons x xs =>
        have hx : x ∈ l.filter (fun p => (k.heap p).TTL.all
            (fun e => decide (now / 1000000000 ≤ e))) := by
          rw [hl]; simp
        obtain ⟨e, he, hlt⟩ := hall x (hsub.subset hx)
        have := hq x hx e he
        omega

/-- Witness of amended C18. The cache of `TestCacheRemoveExpired` at 7s holds
the expired `key1`: one pass shortens the queue, four passes leave the nodes
of `key4` and `key3`. The cache with TTLs 1s, 2s, 3s at 10s: three passes
leave it empty. -/
theorem C18_witness :
    WellFormed cacheTTL ∧
    (∃ p ∈ queueNodes cacheTTL, ∃ e, (cacheTTL.heap p).TTL = some e ∧
      e < 7000000000 / 1000000000) ∧
    (∃ k', RemoveExpired cacheTTL 7000000000 = some k' ∧
      k'.Queue.Len < cacheTTL.Queue.Len ∧
      ∃ p ∈ queueNodes cacheTTL, (∃ e, (cacheTTL.heap p).TTL = some e ∧
        e < 7000000000 / 1000000000) ∧ p ∉ queueNodes k') ∧
    (∃ k'', RemoveExpiredN cacheTTL 7000000000 4 = some k'' ∧ WellFormed k'' ∧
      queueNodes k'' = [5, 4] ∧ QueueLen k'' = 2 ∧
      (∀ p, payload (k''.heap p) = payload (cacheTTL.heap p)) ∧
      (∀ p ∈ queueNodes k'', ∀ e, (k''.heap p).TTL = some e →
        7000000000 / 1000000000 ≤ e) ∧
      ((∀ p ∈ queueNodes cacheTTL, ∃ e, (cacheTTL.heap p).TTL = some e ∧
        e < 7000000000 / 1000000000) → QueueLen k'' = 0)) ∧
    WellFormed cacheAllTTL ∧
    (∃ k'', RemoveExpiredN cacheAllTTL 10000000000 3 = some k'' ∧ WellFormed k'' ∧
      queueNodes k'' = [] ∧ QueueLen k'' = 0 ∧
      (∀ p, payload (k''.heap p) = payload (cacheAllTTL.heap p)) ∧
      (∀ p ∈ queueNodes k'', ∀ e, (k''.heap p).TTL = some e →
        10000000000 / 1000000000 ≤ e) ∧
      ((∀ p ∈ queueNodes cacheAllTTL, ∃ e, (cacheAllTTL.heap p).TTL = some e ∧
        e < 10000000000 / 1000000000) → QueueLen k'' = 0)) :=
  have hex : ∃ p ∈ queueNodes cacheTTL, ∃ e, (cacheTTL.heap p).TTL = some e ∧
      e < 7000000000 / 1000000000 := ⟨2, by decide, 1, by decide, by decide⟩
  ⟨cacheTTL_wellFormed, hex,
    (C18_repeated_sweeps_remove_all_expired cacheTTL cacheTTL_wellFormed 7000000000).1 hex,
    (C18_repeated_sweeps_remove_all_expired cacheTTL cacheTTL_wellFormed 7000000000).2,
    cacheAllTTL_wellFormed,
    (C18_repeated_sweeps_remove_all_expired cacheAllTTL cacheAllTTL_wellFormed 10000000000).2⟩

/-- Claim C19. On a well-formed cache, `Set(k, v, d)` at instant `t` stores the
expiry as the Unix second of `t + d`. At every instant `now`, `Get(k)` answers
not-found exactly when the Unix second of `now` is greater than that second,
and one `RemoveExpired` unlinks the entry exactly in that case; so the entry
is never expired before `t + d`, and is served less than one second past
`t + d`. -/
theorem C19_expiry_whole_seconds (k : Cache) (w : WellFormed k) (key : String) (v : GoAny)
    (d : Int) (ds : List Int) (t : Int) :
    ∃ k1 n, Set k t key v (some (d :: ds)) = some k1 ∧ Load k1.SMap key = some n ∧
      n ∈ queueNodes k1 ∧ (k1.heap n).TTL = some ((t + d) / 1000000000) ∧
      ∀ now,
        (∃ k2 v' found, Get k1 now key = some (k2, v', found) ∧
          (found = false ↔ now / 1000000000 > (t + d) / 1000000000)) ∧
        (∃ k3, RemoveExpired k1 now = some k3 ∧
          (n ∉ queueNodes k3 ↔ now / 1000000000 > (t + d) / 1000000000)) ∧
        (now / 1000000000 > (t + d) / 1000000000 → t + d < now) ∧
        (¬ now / 1000000000 > (t + d) / 1000000000 → now < t + d + 1000000000) := by
  obtain ⟨k1, n, tl, hs, w1, L1, hk, _, httl⟩ := w.set_front t key v
    (rfl : expiresAt t (some (d :: ds)) = some (some ((t + d) / 1000000000)))
  have hl : Load k1.SMap key = some n := by
    rw [← hk]; exact L1.load_of_mem (by simp)
  have hexp : ∀ now, isExpired (k1.heap n).TTL now = true ↔
      now / 1000000000 > (t + d) / 1000000000 := by
    intro now
    rw [httl]
    simp [isExpired]
  refine ⟨k1, n, hs, hl, by rw [L1.queue.queueNodes_eq]; simp, httl, fun now => ⟨?_, ?_, ?_, ?_⟩⟩
  · obtain ⟨k2, hg⟩ := w1.get_indexed hl now
    refine ⟨k2, _, _, hg, ?_⟩
    rw [← hexp now]
    cases he : isExpired (k1.heap n).TTL now <;> simp
  · obtain ⟨k3, hsw, L3, _⟩ := RemoveExpired_spec L1 now
    refine ⟨k3, hsw, ?_⟩
    rw [L3.queue.queueNodes_eq, L1.queue.len, ← hexp now]
    have hnt : n ∉ tl := (List.nodup_cons.1 L1.queue.nodup_nodes).1
    have hhead : n ∈ sweepList (fun p => isExpired (k1.heap p).TTL now) (n :: tl) 0
        ((n :: tl).length : Int) ↔ isExpired (k1.heap n).TTL now = false :=
      sweepList_head (fun p => isExpired (k1.heap p).TTL now) n tl hnt
    rw [hhead]
    cases he : isExpired (k1.heap n).TTL now <;> simp
  · intro h; omega
  · intro h; omega

/-- Witness of C19: capacity 3 after `Set(a)`, `Set(b)`, `Set(c)`, then
`Set(k, v, 2.5s)` at 0.7s: the expiry is the Unix second 3. -/
theorem C19_witness :
    WellFormed cacheABC ∧
    ∃ k1 n, Set cacheABC 700000000 "k" (GoAny.str "v") (some [2500000000]) = some k1 ∧
      Load k1.SMap "k" = some n ∧
      n ∈ queueNodes k1 ∧ (k1.heap n).TTL = some 3 ∧
      ∀ now,
        (∃ k2 v' found, Get k1 now "k" = some (k2, v', found) ∧
          (found = false ↔ now / 1000000000 > 3)) ∧
        (∃ k3, RemoveExpired k1 now = some k3 ∧
          (n ∉ queueNodes k3 ↔ now / 1000000000 > 3)) ∧
        (now / 1000000000 > 3 → (700000000 : Int) + 2500000000 < now) ∧
        (¬ now / 1000000000 > 3 → now < 700000000 + 2500000000 + 1000000000) :=
  ⟨cacheABC_wellFormed,
    C19_expiry_whole_seconds cacheABC cacheABC_wellFormed "k" (GoAny.str "v") 2500000000 []
      700000000⟩

/-- Claim C20, on the code. `Set` with a non-nil empty `ttl` slice passes the
test `ttl != nil` and panics at `ttl[0]`, on every cache and at every clock
time; the same call without `ttl` returns on `NewCache 3`. -/
theorem C20_set_empty_ttl_panics :
    (∀ (k : Cache) (now : Int) (key : String) (value : GoAny),
      Set k now key value (some []) = none) ∧
    (Set (NewCache 3) 0 "k" (GoAny.int 1) (some [])).isSome = false ∧
    (Set (NewCache 3) 0 "k" (GoAny.int 1) none).isSome = true :=
  ⟨fun _ _ _ _ => Set_none_of_expiresAt rfl, by decide, by decide⟩

end LRU
